import Mathlib

/-
  Verification development for the teamoptix-insight ingestion pipeline.

  The definitions below are a shallow embedding of the TypeScript source:
    - the header fingerprint matcher and footer heuristics of
      app/api/ingest/commit-ontrac/route.ts,
    - the fiscal month anchor and CSV preview helpers of
      app/admin/uploads/ontrac/page.tsx,
    - the commit protocol of app/api/ingest/commit-ontrac/route.ts as a
      sequential transition function over an explicit database state,
    - the validation gate of the client pipeline orchestrator,
    - the KPI commit endpoint of app/api/region/[region]/techs/route.ts.

  Database and object storage effects are modelled by explicit state passing;
  fallible external calls are modelled by boolean failure flags supplied as
  inputs.  ISO dates are kept as strings; lexicographic order on well-formed
  YYYY-MM-DD strings coincides with date order, which is what the relational
  store uses for lte filters and descending sorts.  Recursions are written
  with an explicit fuel argument where the source loops shrink a list
  non-structurally, so that every definition evaluates by kernel reduction.
-/

set_option maxHeartbeats 1000000
set_option maxRecDepth 8000

namespace TeamOptix

/-- Whitespace test matching the JavaScript regex class backslash-s on the
ASCII whitespace characters that occur in spreadsheet cell text. -/
def isWs (c : Char) : Bool :=
  c = ' ' || c = '\t' || c = '\n' || c = '\r' || c = '\x0b' || c = '\x0c'

/-- Dropping a while-matching front never lengthens a list. -/
theorem lengthDropWhileLe (p : α → Bool) (l : List α) :
    (l.dropWhile p).length ≤ l.length := by
  induction l with
  | nil => simp [List.dropWhile]
  | cons a t ih =>
    by_cases h : p a = true
    · simpa [List.dropWhile, h] using Nat.le_succ_of_le ih
    · simp [List.dropWhile, h]

/-- Drop leading whitespace, the first half of String.prototype.trim. -/
def dropLead (l : List Char) : List Char := l.dropWhile isWs

/-- Drop trailing whitespace, the second half of String.prototype.trim. -/
def trimTrail (l : List Char) : List Char := (l.reverse.dropWhile isWs).reverse

/-- Two sided trim, as String.prototype.trim. -/
def trimChars (l : List Char) : List Char := trimTrail (dropLead l)

/-- Fuelled worker for collapseWs; the fuel bounds the list length. -/
def collapseWsF : Nat → List Char → List Char
  | 0, _ => []
  | _, [] => []
  | fuel + 1, c :: rest =>
    if isWs c then ' ' :: collapseWsF fuel (rest.dropWhile isWs)
    else c :: collapseWsF fuel rest

/-- Replace every maximal run of whitespace by a single space, as the
JavaScript replacement of backslash-s runs by one space. -/
def collapseWs (l : List Char) : List Char := collapseWsF l.length l

theorem collapseWsF_congr :
    ∀ f1 f2 l, l.length ≤ f1 → l.length ≤ f2 → collapseWsF f1 l = collapseWsF f2 l := by
  intro f1
  induction f1 with
  | zero =>
    intro f2 l h1 _
    have hl : l = [] := List.length_eq_zero.mp (Nat.le_zero.mp h1)
    subst hl
    cases f2 <;> rfl
  | succ n ih =>
    intro f2 l h1 h2
    cases l with
    | nil => cases f2 <;> rfl
    | cons c rest =>
      cases f2 with
      | zero => simp at h2
      | succ m =>
        simp only [List.length_cons, Nat.succ_le_succ_iff] at h1 h2
        simp only [collapseWsF]
        by_cases hw : isWs c = true
        · simp only [hw, if_true, List.cons.injEq, true_and]
          exact ih m _ (Nat.le_trans (lengthDropWhileLe _ _) h1)
            (Nat.le_trans (lengthDropWhileLe _ _) h2)
        · simp only [hw, Bool.false_eq_true, if_false, List.cons.injEq, true_and]
          exact ih m rest h1 h2

@[simp] theorem collapseWs_nil : collapseWs [] = [] := rfl

theorem collapseWs_cons_ws {c : Char} (rest : List Char) (h : isWs c = true) :
    collapseWs (c :: rest) = ' ' :: collapseWs (rest.dropWhile isWs) := by
  simp only [collapseWs, List.length_cons, collapseWsF, h, if_true, List.cons.injEq, true_and]
  exact collapseWsF_congr _ _ _ (lengthDropWhileLe _ _) (le_refl _)

theorem collapseWs_cons_not {c : Char} (rest : List Char) (h : isWs c = false) :
    collapseWs (c :: rest) = c :: collapseWs rest := by
  simp only [collapseWs, List.length_cons, collapseWsF, h, Bool.false_eq_true, if_false]

/-- Fuelled worker for wordsOf; the fuel bounds the list length. -/
def wordsOfF : Nat → List Char → List (List Char)
  | 0, _ => []
  | _, [] => []
  | fuel + 1, c :: rest =>
    if isWs c then wordsOfF fuel rest
    else (c :: rest.takeWhile (fun x => !isWs x)) :: wordsOfF fuel (rest.dropWhile (fun x => !isWs x))

/-- The maximal whitespace-free words of a character list, in order; this is
what the JavaScript split on whitespace runs produces after dropping empty
pieces. -/
def wordsOf (l : List Char) : List (List Char) := wordsOfF l.length l

theorem wordsOfF_congr :
    ∀ f1 f2 l, l.length ≤ f1 → l.length ≤ f2 → wordsOfF f1 l = wordsOfF f2 l := by
  intro f1
  induction f1 with
  | zero =>
    intro f2 l h1 _
    have hl : l = [] := List.length_eq_zero.mp (Nat.le_zero.mp h1)
    subst hl
    cases f2 <;> rfl
  | succ n ih =>
    intro f2 l h1 h2
    cases l with
    | nil => cases f2 <;> rfl
    | cons c rest =>
      cases f2 with
      | zero => simp at h2
      | succ m =>
        simp only [List.length_cons, Nat.succ_le_succ_iff] at h1 h2
        simp only [wordsOfF]
        by_cases hw : isWs c = true
        · simp only [hw, if_true]
          exact ih m rest h1 h2
        · simp only [hw, Bool.false_eq_true, if_false, List.cons.injEq, true_and]
          exact ih m _ (Nat.le_trans (lengthDropWhileLe _ _) h1)
            (Nat.le_trans (lengthDropWhileLe _ _) h2)

@[simp] theorem wordsOf_nil : wordsOf [] = [] := rfl

theorem wordsOf_cons_ws {c : Char} (rest : List Char) (h : isWs c = true) :
    wordsOf (c :: rest) = wordsOf rest := by
  simp only [wordsOf, List.length_cons, wordsOfF, h, if_true]

theorem wordsOf_cons_not {c : Char} (rest : List Char) (h : isWs c = false) :
    wordsOf (c :: rest) =
      (c :: rest.takeWhile (fun x => !isWs x)) :: wordsOf (rest.dropWhile (fun x => !isWs x)) := by
  simp only [wordsOf, List.length_cons, wordsOfF, h, Bool.false_eq_true, if_false,
    List.cons.injEq, true_and]
  exact wordsOfF_congr _ _ _ (lengthDropWhileLe _ _) (le_refl _)

/-- Join character lists with a single separator character. -/
def joinSep (sep : Char) : List (List Char) → List Char
  | [] => []
  | [w] => w
  | w :: ws => w ++ sep :: joinSep sep ws

/-- String wrapper for trimChars. -/
def strTrim (s : String) : String := ⟨trimChars s.data⟩

/-- Lowercase every character, as String.prototype.toLowerCase on the
alphabetic range. -/
def lowerChars (l : List Char) : List Char := l.map Char.toLower

/-- Uppercase every character, as String.prototype.toUpperCase on the
alphabetic range. -/
def upperChars (l : List Char) : List Char := l.map Char.toUpper

/-- Does the haystack start with the pattern. -/
def startsWithL : List Char → List Char → Bool
  | _, [] => true
  | [], _ :: _ => false
  | h :: hs, p :: ps => h = p && startsWithL hs ps

/-- Substring containment, as String.prototype.includes. -/
def containsSub : List Char → List Char → Bool
  | [], pat => pat.isEmpty
  | h :: t, pat => startsWithL (h :: t) pat || containsSub t pat

/-- Normalization used by the header fingerprint: trim, lowercase, collapse
internal whitespace runs to single spaces (normalizeForFingerprint in
commit-ontrac). -/
def normalizeFp (l : List Char) : List Char :=
  collapseWs (lowerChars (trimChars l))

/-- Header fingerprint: normalize each header and join with the bar
separator (fingerprint in commit-ontrac). -/
def fingerprintL (headers : List (List Char)) : List Char :=
  joinSep '|' (headers.map normalizeFp)

/-- Header fingerprint on strings. -/
def fingerprint (headers : List String) : String :=
  ⟨fingerprintL (headers.map String.data)⟩

/-- Decimal digit character for a value below ten. -/
def digitChar (n : Nat) : Char := Char.ofNat ('0'.toNat + n)

/-- Fuelled decimal rendering worker. -/
def natToCharsAux : Nat → Nat → List Char
  | 0, _ => []
  | _, 0 => []
  | fuel + 1, n => natToCharsAux fuel (n / 10) ++ [digitChar (n % 10)]

/-- Decimal rendering of a natural number, as JavaScript template
interpolation of a number. -/
def natToChars (n : Nat) : List Char :=
  if n = 0 then ['0'] else natToCharsAux n n

/-- Two digit zero padding, as String.prototype.padStart with width two. -/
def pad2 (n : Nat) : List Char :=
  if n < 10 then '0' :: natToChars n else natToChars n

/-- Fiscal month anchor rule over date components, from fiscalMonthAnchor in
the uploads page: the month is zero based as in Date.getUTCMonth; if the day
is at least 22 the month advances by one, rolling the year at December. -/
def fiscalMonthAnchorYMD (y m0 day : Nat) : String :=
  let p : Nat × Nat :=
    if day ≥ 22 then (if m0 + 1 = 12 then (y + 1, 0) else (y, m0 + 1)) else (y, m0)
  ⟨natToChars p.1 ++ '-' :: pad2 (p.2 + 1) ++ "-21".data⟩

/-- Split on a separator character, as String.prototype.split. -/
def splitOnChar (sep : Char) : List Char → List (List Char)
  | [] => [[]]
  | c :: rest =>
    let r := splitOnChar sep rest
    if c = sep then [] :: r
    else
      match r with
      | [] => [[c]]
      | w :: ws => (c :: w) :: ws

/-- Decimal digit test. -/
def isDigit (c : Char) : Bool := '0' ≤ c && c ≤ '9'

/-- Parse an all-digit character list into a natural number. -/
def digitsToNatAux : List Char → Nat → Option Nat
  | [], acc => some acc
  | c :: rest, acc =>
    if isDigit c then digitsToNatAux rest (acc * 10 + (c.toNat - '0'.toNat))
    else none

/-- Parse a non-empty all-digit character list into a natural number. -/
def digitsToNat? (l : List Char) : Option Nat :=
  match l with
  | [] => none
  | _ => digitsToNatAux l 0

/-- Fiscal month anchor on an ISO YYYY-MM-DD string; none models the null
returned by the page for an invalid date. -/
def fiscalMonthAnchorIso (refIso : String) : Option String :=
  match splitOnChar '-' refIso.data with
  | [ys, ms, ds] =>
    match digitsToNat? ys, digitsToNat? ms, digitsToNat? ds with
    | some y, some m, some d =>
      if 1 ≤ m ∧ m ≤ 12 ∧ 1 ≤ d ∧ d ≤ 31 then some (fiscalMonthAnchorYMD y (m - 1) d)
      else none
    | _, _, _ => none
  | _ => none

/-- Footer and summary keyword list shared by the commit path and the CSV
preview path. -/
def FOOTER_PATTERNS : List String :=
  ["GRAND TOTAL", "SUBTOTAL", "SUB TOTAL", "TOTALS", "TOTAL", "SUMMARY",
   "END OF REPORT", "REPORT TOTAL", "PAGE "]

/-- Footer heuristic of the xlsx commit path (looksLikeFooter in
commit-ontrac): empty trimmed signature, keyword containment in the
uppercased signature, or at most two whitespace separated tokens. -/
def looksLikeFooter (joined : List Char) : Bool :=
  let h := upperChars joined
  if (trimChars h).isEmpty then true
  else if FOOTER_PATTERNS.any (fun p => containsSub h p.data) then true
  else if (wordsOf joined).length ≤ 2 then true
  else false

/-- Alphanumeric test for the uppercased alphabet, matching the character
class of normalizeForMatch after toUpperCase. -/
def isAlnum (c : Char) : Bool := ('A' ≤ c && c ≤ 'Z') || ('0' ≤ c && c ≤ '9')

/-- Strip one trailing dot-extension, as the anchored regex replacement in
normalizeForMatch. -/
def stripExtSuffix (l : List Char) : List Char :=
  let r := l.reverse
  if (r.takeWhile isAlnum).isEmpty then l
  else
    match r.dropWhile isAlnum with
    | '.' :: rest => rest.reverse
    | _ => l

/-- Fuelled worker for collapseNonAlnum; the fuel bounds the list length. -/
def collapseNonAlnumF : Nat → List Char → List Char
  | 0, _ => []
  | _, [] => []
  | fuel + 1, c :: rest =>
    if isAlnum c then c :: collapseNonAlnumF fuel rest
    else ' ' :: collapseNonAlnumF fuel (rest.dropWhile (fun x => !isAlnum x))

/-- Replace every maximal run of non-alphanumeric characters by one space. -/
def collapseNonAlnum (l : List Char) : List Char := collapseNonAlnumF l.length l

/-- Region matching normalization of the uploads page: uppercase, strip a
trailing extension, collapse non-alphanumerics to single spaces, collapse
whitespace, trim. -/
def normalizeForMatch (l : List Char) : List Char :=
  trimChars (collapseWs (collapseNonAlnum (stripExtSuffix (upperChars l))))

/-- Footer heuristic of the CSV preview path (looksLikeFooterLine in the
uploads page): empty trimmed line, keyword containment after
normalizeForMatch, or at most two non-empty comma delimited cells. -/
def looksLikeFooterLine (line : List Char) : Bool :=
  let t := trimChars line
  if t.isEmpty then true
  else
    let hay := normalizeForMatch t
    if FOOTER_PATTERNS.any (fun p => containsSub hay (normalizeForMatch p.data)) then true
    else if (((splitOnChar ',' t).map trimChars).filter (fun c => !c.isEmpty)).length ≤ 2 then true
    else false

/-- Hardcoded commit-time region allowlist of commit-ontrac. -/
def ALLOWED_REGIONS : List String :=
  ["Keystone", "Beltway", "Big South", "Florida", "Freedom", "New England"]

/-- Region detection from the row one title text in commit-ontrac: first
allowlisted region whose uppercased name occurs in the uppercased text. -/
def detectRegionFromRow1 (row1Text : List Char) : Option String :=
  ALLOWED_REGIONS.find? (fun r => containsSub (upperChars row1Text) (upperChars r.data))

/-- Region matching of the uploads page against the authoritative region
list: first region whose normalized name is a substring of the normalized
text; regions with an empty normalized form are not indexed. -/
def matchRegionFromText (text : List Char) (regions : List String) : Option String :=
  (regions.filter (fun r => !(normalizeForMatch r.data).isEmpty)).find?
    (fun r => containsSub (normalizeForMatch text) (normalizeForMatch r.data))

/-- Lexicographic comparison of character lists by code point, the order the
relational store applies to well-formed ISO date strings. -/
def listLeB : List Char → List Char → Bool
  | [], _ => true
  | _ :: _, [] => false
  | a :: as, b :: bs =>
    if a.toNat < b.toNat then true
    else if b.toNat < a.toNat then false
    else listLeB as bs

/-- String order wrapper used for date columns. -/
def strLeB (x y : String) : Bool := listLeB x.data y.data

/- Auxiliary list lemmas about dropWhile, trimming and words, used to
characterize the fingerprint normalization. -/

theorem dropWhileOfAllNot (p : α → Bool) :
    ∀ l : List α, (∀ c ∈ l, p c = false) → l.dropWhile p = l
  | [], _ => rfl
  | x :: t, h => by
    have hx : p x = false := h x (List.mem_cons_self x t)
    simp [List.dropWhile_cons, hx]

theorem dropWhileAppend (p : α → Bool) (a b : List α) :
    (a ++ b).dropWhile p =
      if (a.dropWhile p).isEmpty then b.dropWhile p else a.dropWhile p ++ b := by
  induction a with
  | nil => simp
  | cons x t ih =>
    by_cases h : p x = true
    · simpa [List.dropWhile_cons, h] using ih
    · simp [List.dropWhile_cons, h]

theorem dropWhileHead (p : α → Bool) :
    ∀ l : List α, l.dropWhile p = [] ∨ ∃ d t, l.dropWhile p = d :: t ∧ p d = false
  | [] => Or.inl rfl
  | x :: xs => by
    by_cases h : p x = true
    · rw [List.dropWhile_cons_of_pos h]
      exact dropWhileHead p xs
    · right
      refine ⟨x, xs, ?_, by simpa using h⟩
      simp [List.dropWhile_cons, h]

theorem dropWhileIdem (p : α → Bool) (l : List α) :
    (l.dropWhile p).dropWhile p = l.dropWhile p := by
  rcases dropWhileHead p l with h | ⟨d, t, h1, h2⟩
  · rw [h]; rfl
  · rw [h1]; simp [List.dropWhile_cons, h2]

theorem trimTrail_eq_nil_iff (m : List Char) :
    trimTrail m = [] ↔ ∀ c ∈ m, isWs c = true := by
  unfold trimTrail
  rw [List.reverse_eq_nil_iff, List.dropWhile_eq_nil_iff]
  constructor
  · intro h c hc
    exact h c (List.mem_reverse.mpr hc)
  · intro h c hc
    exact h c (List.mem_reverse.mp hc)

theorem trimTrail_append_wsAll {m : List Char} (w : List Char)
    (h : ∀ c ∈ m, isWs c = true) : trimTrail (w ++ m) = trimTrail w := by
  unfold trimTrail
  rw [List.reverse_append, dropWhileAppend]
  have hnil : m.reverse.dropWhile isWs = [] := by
    rw [List.dropWhile_eq_nil_iff]
    intro c hc
    exact h c (List.mem_reverse.mp hc)
  simp [hnil]

theorem trimTrail_append_ne {m : List Char} (w : List Char)
    (h : trimTrail m ≠ []) : trimTrail (w ++ m) = w ++ trimTrail m := by
  unfold trimTrail at h ⊢
  rw [List.reverse_append, dropWhileAppend]
  have hne : m.reverse.dropWhile isWs ≠ [] := by
    intro h0
    exact h (by rw [h0]; rfl)
  have hemp : (m.reverse.dropWhile isWs).isEmpty = false := by
    cases hc : m.reverse.dropWhile isWs
    · exact absurd hc hne
    · rfl
  rw [hemp]
  simp

theorem trimTrail_allNot {w : List Char} (h : ∀ c ∈ w, isWs c = false) :
    trimTrail w = w := by
  unfold trimTrail
  rw [dropWhileOfAllNot _ _ (fun c hc => h c (List.mem_reverse.mp hc)), List.reverse_reverse]

theorem trimTrail_decomp (k : List Char) :
    ∃ s, k = trimTrail k ++ s ∧ ∀ c ∈ s, isWs c = true := by
  refine ⟨(k.reverse.takeWhile isWs).reverse, ?_, ?_⟩
  · conv_lhs => rw [← List.reverse_reverse k, ← List.takeWhile_append_dropWhile isWs k.reverse]
    rw [List.reverse_append]
    rfl
  · intro c hc
    rw [List.mem_reverse] at hc
    exact List.mem_takeWhile_imp hc

theorem dropWhile_trimTrail_fix {k : List Char} (hk : k.dropWhile isWs = k) :
    (trimTrail k).dropWhile isWs = trimTrail k := by
  obtain ⟨s, hdecomp, _⟩ := trimTrail_decomp k
  cases ht : trimTrail k with
  | nil => rfl
  | cons e t =>
    rw [ht, List.cons_append] at hdecomp
    have he : isWs e = false := by
      by_contra hcon
      have he' : isWs e = true := by simpa using hcon
      rw [hdecomp, List.dropWhile_cons_of_pos he'] at hk
      have hlen := congrArg List.length hk
      have hle := lengthDropWhileLe isWs (t ++ s)
      rw [List.length_cons] at hlen
      omega
    simp [List.dropWhile_cons, he]

theorem collapseWs_append_allNot {w : List Char} (m : List Char)
    (h : ∀ c ∈ w, isWs c = false) : collapseWs (w ++ m) = w ++ collapseWs m := by
  induction w with
  | nil => rfl
  | cons x t ih =>
    have hx : isWs x = false := h x (List.mem_cons_self _ _)
    rw [List.cons_append, collapseWs_cons_not _ hx,
      ih (fun c hc => h c (List.mem_cons_of_mem _ hc)), List.cons_append]

theorem collapseWs_allNot {w : List Char} (h : ∀ c ∈ w, isWs c = false) :
    collapseWs w = w := by
  have hx := collapseWs_append_allNot (w := w) [] h
  simpa using hx

theorem collapseWs_wsRun_append {a m : List Char} (ha : a ≠ [])
    (hall : ∀ c ∈ a, isWs c = true) (hm : m.dropWhile isWs = m) :
    collapseWs (a ++ m) = ' ' :: collapseWs m := by
  cases a with
  | nil => exact absurd rfl ha
  | cons a0 t =>
    rw [List.cons_append, collapseWs_cons_ws _ (hall a0 (List.mem_cons_self _ _))]
    have hdrop : (t ++ m).dropWhile isWs = m := by
      rw [dropWhileAppend]
      have hnil : t.dropWhile isWs = [] := by
        rw [List.dropWhile_eq_nil_iff]
        intro c hc
        exact hall c (List.mem_cons_of_mem _ hc)
      simp [hnil, hm]
    rw [hdrop]

theorem wordsOf_dropLead : ∀ l : List Char, wordsOf (l.dropWhile isWs) = wordsOf l
  | [] => rfl
  | c :: rest => by
    by_cases h : isWs c = true
    · rw [List.dropWhile_cons_of_pos h, wordsOf_cons_ws _ h]
      exact wordsOf_dropLead rest
    · have h' : isWs c = false := by simpa using h
      rw [List.dropWhile_cons_of_neg (by simp [h'])]

theorem wordsOf_eq_nil_iff : ∀ l : List Char, (wordsOf l = [] ↔ ∀ c ∈ l, isWs c = true)
  | [] => by simp
  | c :: rest => by
    by_cases h : isWs c = true
    · rw [wordsOf_cons_ws _ h, wordsOf_eq_nil_iff rest]
      constructor
      · intro hall x hx
        rcases List.mem_cons.mp hx with rfl | hx
        · exact h
        · exact hall x hx
      · intro hall x hx
        exact hall x (List.mem_cons_of_mem _ hx)
    · have h' : isWs c = false := by simpa using h
      rw [wordsOf_cons_not _ h']
      constructor
      · intro h0
        exact absurd h0 (List.cons_ne_nil _ _)
      · intro hall
        exact absurd (hall c (List.mem_cons_self _ _)) (by simp [h'])

@[simp] theorem joinSep_nil (sep : Char) : joinSep sep [] = [] := rfl

@[simp] theorem joinSep_single (sep : Char) (w : List Char) : joinSep sep [w] = w := rfl

theorem joinSep_cons_ne (sep : Char) (w : List Char) {ws : List (List Char)}
    (h : ws ≠ []) : joinSep sep (w :: ws) = w ++ sep :: joinSep sep ws := by
  cases ws with
  | nil => exact absurd rfl h
  | cons x xs => rfl

/-- Collapsing whitespace after trimming only the tail of a list without
leading whitespace produces exactly its words joined by single spaces. -/
theorem collapseWs_trimTrail_eq (n : Nat) :
    ∀ l : List Char, l.length ≤ n → l.dropWhile isWs = l →
      collapseWs (trimTrail l) = joinSep ' ' (wordsOf l) := by
  induction n with
  | zero =>
    intro l hl _
    have hnil : l = [] := List.length_eq_zero.mp (Nat.le_zero.mp hl)
    subst hnil
    rfl
  | succ n ih =>
    intro l hl hlead
    cases l with
    | nil => rfl
    | cons c rest =>
      have hc : isWs c = false := by
        by_contra hcon
        have hc' : isWs c = true := by simpa using hcon
        rw [List.dropWhile_cons_of_pos hc'] at hlead
        have hlen := congrArg List.length hlead
        have hle := lengthDropWhileLe isWs rest
        rw [List.length_cons] at hlen
        omega
      have hrest : rest.length ≤ n := by
        rw [List.length_cons] at hl
        omega
      have hsplit : c :: rest =
          (c :: rest.takeWhile (fun x => !isWs x)) ++ rest.dropWhile (fun x => !isWs x) := by
        rw [List.cons_append, List.takeWhile_append_dropWhile]
      have hwAll : ∀ x ∈ c :: rest.takeWhile (fun x => !isWs x), isWs x = false := by
        intro x hx
        rcases List.mem_cons.mp hx with rfl | hx
        · exact hc
        · have := List.mem_takeWhile_imp hx
          simpa using this
      have hwords := wordsOf_cons_not rest hc
      by_cases hall : ∀ x ∈ rest.dropWhile (fun x => !isWs x), isWs x = true
      · have hw2 : wordsOf (rest.dropWhile (fun x => !isWs x)) = [] :=
          (wordsOf_eq_nil_iff _).mpr hall
        rw [hwords, hw2]
        conv_lhs => rw [hsplit]
        rw [trimTrail_append_wsAll _ hall, trimTrail_allNot hwAll, collapseWs_allNot hwAll]
        rfl
      · have hr2ne : rest.dropWhile (fun x => !isWs x) ≠ [] := by
          intro h0
          exact hall (by simp [h0])
        obtain ⟨d, r3, hd, hdws⟩ :
            ∃ d t, rest.dropWhile (fun x => !isWs x) = d :: t ∧ isWs d = true := by
          rcases dropWhileHead (fun x => !isWs x) rest with h0 | ⟨d, t, h1, h2⟩
          · exact absurd h0 hr2ne
          · exact ⟨d, t, h1, by simpa using h2⟩
        have htne : trimTrail (rest.dropWhile (fun x => !isWs x)) ≠ [] := by
          intro h0
          exact hall ((trimTrail_eq_nil_iff _).mp h0)
        have hkne : (rest.dropWhile (fun x => !isWs x)).dropWhile isWs ≠ [] := by
          intro h0
          exact hall (List.dropWhile_eq_nil_iff.mp h0)
        have hklead :
            ((rest.dropWhile (fun x => !isWs x)).dropWhile isWs).dropWhile isWs =
              (rest.dropWhile (fun x => !isWs x)).dropWhile isWs :=
          dropWhileIdem _ _
        have hklen : ((rest.dropWhile (fun x => !isWs x)).dropWhile isWs).length ≤ n := by
          have h1 := lengthDropWhileLe isWs r3
          have h2 := lengthDropWhileLe (fun x => !isWs x) rest
          have h3 : (rest.dropWhile (fun x => !isWs x)).dropWhile isWs = r3.dropWhile isWs := by
            rw [hd, List.dropWhile_cons_of_pos hdws]
          have h4 := congrArg List.length hd
          rw [List.length_cons] at h4
          rw [h3]
          omega
        have htkne : trimTrail ((rest.dropWhile (fun x => !isWs x)).dropWhile isWs) ≠ [] := by
          intro h0
          have hws := (trimTrail_eq_nil_iff _).mp h0
          rcases dropWhileHead isWs (rest.dropWhile (fun x => !isWs x)) with h1 | ⟨e, t, h1, h2⟩
          · exact hkne h1
          · rw [h1] at hws
            exact absurd (hws e (List.mem_cons_self _ _)) (by simp [h2])
        have htwne : (rest.dropWhile (fun x => !isWs x)).takeWhile isWs ≠ [] := by
          rw [hd, List.takeWhile_cons_of_pos hdws]
          exact List.cons_ne_nil _ _
        have htwall : ∀ x ∈ (rest.dropWhile (fun x => !isWs x)).takeWhile isWs, isWs x = true := by
          intro x hx
          exact List.mem_takeWhile_imp hx
        have htr2 : trimTrail (rest.dropWhile (fun x => !isWs x)) =
            (rest.dropWhile (fun x => !isWs x)).takeWhile isWs ++
              trimTrail ((rest.dropWhile (fun x => !isWs x)).dropWhile isWs) := by
          conv_lhs => rw [← List.takeWhile_append_dropWhile isWs (rest.dropWhile (fun x => !isWs x))]
          exact trimTrail_append_ne _ htkne
        have hwordsk :
            wordsOf ((rest.dropWhile (fun x => !isWs x)).dropWhile isWs) =
              wordsOf (rest.dropWhile (fun x => !isWs x)) :=
          wordsOf_dropLead _
        have hwordsne : wordsOf (rest.dropWhile (fun x => !isWs x)) ≠ [] := by
          intro h0
          exact hall ((wordsOf_eq_nil_iff _).mp h0)
        calc collapseWs (trimTrail (c :: rest))
            = collapseWs ((c :: rest.takeWhile (fun x => !isWs x)) ++
                trimTrail (rest.dropWhile (fun x => !isWs x))) := by
              conv_lhs => rw [hsplit]
              rw [trimTrail_append_ne _ htne]
          _ = (c :: rest.takeWhile (fun x => !isWs x)) ++
                collapseWs (trimTrail (rest.dropWhile (fun x => !isWs x))) :=
              collapseWs_append_allNot _ hwAll
          _ = (c :: rest.takeWhile (fun x => !isWs x)) ++
                ' ' :: collapseWs (trimTrail ((rest.dropWhile (fun x => !isWs x)).dropWhile isWs)) := by
              rw [htr2, collapseWs_wsRun_append htwne htwall (dropWhile_trimTrail_fix hklead)]
          _ = (c :: rest.takeWhile (fun x => !isWs x)) ++
                ' ' :: joinSep ' ' (wordsOf (rest.dropWhile (fun x => !isWs x))) := by
              rw [ih _ hklen hklead, hwordsk]
          _ = joinSep ' ' (wordsOf (c :: rest)) := by
              rw [hwords, joinSep_cons_ne _ _ hwordsne]

theorem charOfNatToNat {n : Nat} (h : n.isValidChar) : (Char.ofNat n).toNat = n := by
  simp [Char.ofNat, h, Char.ofNatAux, Char.toNat, BitVec.toNat_ofNatLt, UInt32.toNat]

/-- Lowercasing preserves being a whitespace character. -/
theorem isWs_toLower (c : Char) : isWs (Char.toLower c) = isWs c := by
  have hlt : ∀ d : Char, isWs d = true → d.toNat < 33 := by
    intro d hd
    simp only [isWs, Bool.or_eq_true, decide_eq_true_eq] at hd
    rcases hd with ((((rfl | rfl) | rfl) | rfl) | rfl) | rfl <;> decide
  by_cases h : 65 ≤ c.toNat ∧ c.toNat ≤ 90
  · have hv : (c.toNat + 32).isValidChar := by
      exact Or.inl (by omega)
    have hofnat : (Char.ofNat (c.toNat + 32)).toNat = c.toNat + 32 := charOfNatToNat hv
    have hlow : Char.toLower c = Char.ofNat (c.toNat + 32) := by
      show (if c.toNat ≥ 65 ∧ c.toNat ≤ 90 then Char.ofNat (c.toNat + 32) else c) =
        Char.ofNat (c.toNat + 32)
      rw [if_pos h]
    rw [hlow]
    have hfa : isWs (Char.ofNat (c.toNat + 32)) = false := by
      by_contra hcon
      have := hlt _ (by simpa using hcon)
      omega
    have hfb : isWs c = false := by
      by_contra hcon
      have := hlt _ (by simpa using hcon)
      omega
    rw [hfa, hfb]
  · have hlow : Char.toLower c = c := by
      show (if c.toNat ≥ 65 ∧ c.toNat ≤ 90 then Char.ofNat (c.toNat + 32) else c) = c
      rw [if_neg h]
    rw [hlow]

theorem dropWhile_isWs_map_toLower (l : List Char) :
    (l.map Char.toLower).dropWhile isWs = (l.dropWhile isWs).map Char.toLower := by
  induction l with
  | nil => rfl
  | cons c rest ih =>
    by_cases h : isWs c = true
    · simp [List.dropWhile_cons, isWs_toLower, h, ih]
    · simp [List.dropWhile_cons, isWs_toLower, h]

theorem trimTrail_map_toLower (l : List Char) :
    trimTrail (l.map Char.toLower) = (trimTrail l).map Char.toLower := by
  unfold trimTrail
  rw [← List.map_reverse, dropWhile_isWs_map_toLower, List.map_reverse]

theorem trimChars_lowerChars (l : List Char) :
    trimChars (lowerChars l) = lowerChars (trimChars l) := by
  unfold trimChars dropLead lowerChars
  rw [dropWhile_isWs_map_toLower, trimTrail_map_toLower]

/-- The fingerprint normalization of a header depends only on the sequence of
its lowercased whitespace-free words. -/
theorem normalizeFp_eq_joinWords (l : List Char) :
    normalizeFp l = joinSep ' ' (wordsOf (lowerChars l)) := by
  unfold normalizeFp
  rw [← trimChars_lowerChars]
  unfold trimChars dropLead
  have hfix : ((lowerChars l).dropWhile isWs).dropWhile isWs =
      (lowerChars l).dropWhile isWs := dropWhileIdem _ _
  rw [collapseWs_trimTrail_eq ((lowerChars l).dropWhile isWs).length _ (le_refl _) hfix]
  rw [wordsOf_dropLead]

theorem joinSepSplit {sep : Char} :
    ∀ x y a b : List Char, sep ∉ x → sep ∉ y →
      x ++ sep :: a = y ++ sep :: b → x = y ∧ a = b := by
  intro x
  induction x with
  | nil =>
    intro y a b _ hy h
    cases y with
    | nil =>
      refine ⟨rfl, ?_⟩
      simpa using h
    | cons d t =>
      rw [List.nil_append, List.cons_append] at h
      injection h with h1 h2
      have hmem : sep ∈ d :: t := by
        rw [h1]
        exact List.mem_cons_self d t
      exact absurd hmem hy
  | cons e t ih =>
    intro y a b hx hy h
    cases y with
    | nil =>
      rw [List.cons_append, List.nil_append] at h
      injection h with h1 h2
      have hmem : sep ∈ e :: t := by
        rw [← h1]
        exact List.mem_cons_self e t
      exact absurd hmem hx
    | cons d u =>
      rw [List.cons_append, List.cons_append] at h
      injection h with h1 h2
      obtain ⟨ih1, ih2⟩ := ih u a b (fun hm => hx (List.mem_cons_of_mem _ hm))
        (fun hm => hy (List.mem_cons_of_mem _ hm)) h2
      subst h1
      exact ⟨by rw [ih1], ih2⟩

theorem joinSepInj {sep : Char} :
    ∀ l1 l2 : List (List Char),
      (∀ w ∈ l1, w ≠ [] ∧ sep ∉ w) → (∀ w ∈ l2, w ≠ [] ∧ sep ∉ w) →
      joinSep sep l1 = joinSep sep l2 → l1 = l2 := by
  intro l1
  induction l1 with
  | nil =>
    intro l2 _ h2 h
    cases l2 with
    | nil => rfl
    | cons y ys =>
      cases ys with
      | nil => exact absurd h.symm (h2 y (List.mem_cons_self _ _)).1
      | cons z zs =>
        rw [joinSep_cons_ne _ _ (List.cons_ne_nil _ _)] at h
        have hlen := congrArg List.length h
        simp [List.length_append] at hlen
        omega
  | cons x xs ih =>
    intro l2 h1 h2 h
    cases l2 with
    | nil =>
      cases xs with
      | nil => exact absurd h (h1 x (List.mem_cons_self _ _)).1
      | cons x2 xs2 =>
        rw [joinSep_cons_ne _ _ (List.cons_ne_nil _ _)] at h
        have hlen := congrArg List.length h
        simp [List.length_append] at hlen
    | cons y ys =>
      cases xs with
      | nil =>
        cases ys with
        | nil =>
          have hxy : x = y := h
          rw [hxy]
        | cons z zs =>
          rw [joinSep_cons_ne _ _ (List.cons_ne_nil _ _)] at h
          have hmem : sep ∈ x := by
            have hx : joinSep sep [x] = x := rfl
            rw [hx] at h
            rw [h]
            exact List.mem_append_right _ (List.mem_cons_self _ _)
          exact absurd hmem (h1 x (List.mem_cons_self _ _)).2
      | cons x2 xs2 =>
        cases ys with
        | nil =>
          rw [joinSep_cons_ne _ _ (List.cons_ne_nil _ _)] at h
          have hmem : sep ∈ y := by
            have hy : joinSep sep [y] = y := rfl
            rw [hy] at h
            rw [← h]
            exact List.mem_append_right _ (List.mem_cons_self _ _)
          exact absurd hmem (h2 y (List.mem_cons_self _ _)).2
        | cons z zs =>
          rw [joinSep_cons_ne _ _ (List.cons_ne_nil _ _),
            joinSep_cons_ne _ _ (List.cons_ne_nil _ _)] at h
          obtain ⟨hxy, hrest⟩ := joinSepSplit x y _ _ (h1 x (List.mem_cons_self _ _)).2
            (h2 y (List.mem_cons_self _ _)).2 h
          have htail := ih (z :: zs) (fun w hw => h1 w (List.mem_cons_of_mem _ hw))
            (fun w hw => h2 w (List.mem_cons_of_mem _ hw)) hrest
          rw [hxy, htail]

/- Data model of the relational store, from the tables used by
commit-ontrac: ingest_batches_v1, ingest_raw_rows_v1,
ingest_rubric_versions_v1, ingest_report_settings_v1, ingest_batch_pins_v1. -/

structure Batch where
  batch_id : Nat
  upload_set_id : String
  source_system : String
  fiscal_month_anchor : String
  status : String
  manifest_path : Option String
deriving DecidableEq

structure RawRow where
  batch_id : Nat
  source_file : String
  sheet_name : String
  row_num : Nat
  tech_id : String
  region : Option String
  payload : List (String × String)
deriving DecidableEq

structure RubricVersion where
  id : Nat
  scope : String
  source_system : String
  fiscal_month_anchor : String
  active : Bool
deriving DecidableEq

structure SettingsRow where
  scope : String
  source_system : String
  updated_at : String
deriving DecidableEq

structure BatchPin where
  batch_id : Nat
  scope : String
  source_system : String
  fiscal_month_anchor : String
  rubric_version_id : Nat
  settings_pinned_at : String
deriving DecidableEq

structure Db where
  batches : List Batch
  raw_rows : List RawRow
  rubric_versions : List RubricVersion
  settings : List SettingsRow
  pins : List BatchPin
  nextBatchId : Nat
deriving DecidableEq

/- Workbook model: a worksheet is its name and its rows of cell texts; getRow
is one-indexed as in ExcelJS. -/

structure Sheet where
  name : String
  rows : List (List String)
deriving DecidableEq

structure Workbook where
  worksheets : List Sheet
deriving DecidableEq

/-- One listed storage object; none for download models a failed download. -/
structure StorageFile where
  name : String
  download : Option Workbook
deriving DecidableEq

/-- Cell text handling of getRowTexts: cellText trims a string cell, then the
mapper strips null characters and trims again. -/
def cleanCell (s : String) : String :=
  strTrim ⟨(strTrim s).data.filter (fun c => c ≠ '\x00')⟩

def getRowTexts (cells : List String) : List String := cells.map cleanCell

def getRow (ws : Sheet) (r : Nat) : List String := ws.rows.getD (r - 1) []

/-- The expected header list of commit-ontrac, raw names preserved. -/
def EXPECTED_HEADERS : List String :=
  ["TechId", "TechName", "Supervisor", "Total Jobs", "Installs", "TCs", "SROs",
   "TUResult", "TUEligibleJobs", "ToolUsage", "Promoters", "Detractors",
   "tNPS Surveys", "tNPS Rate", "FTRFailJobs", "Total FTR/Contact Jobs", "FTR%",
   "48Hr Contact Orders", "48Hr Contact Rate%", "PHT Jobs", "PHT Pure Pass",
   "PHT Fails", "PHT RTM", "PHT Pass%", "PHT Pure Pass%", "TotalAppts",
   "TotalMetAppts", "MetRate", "Rework Count", "Rework Rate%", "SOI Count",
   "SOI Rate%", "Repeat Count", "Repeat Rate%"]

def expectedFP : String := fingerprint EXPECTED_HEADERS

/-- Header cells of a worksheet: row two texts, trimmed, empties dropped. -/
def headerCells (ws : Sheet) : List String :=
  ((getRowTexts (getRow ws 2)).map strTrim).filter (fun h => !h.data.isEmpty)

/-- First worksheet whose header fingerprint equals the expected fingerprint,
with its header list; sheets with no header cells are skipped. -/
def findMatchedSheet : List Sheet → Option (Sheet × List String)
  | [] => none
  | ws :: rest =>
    let headers := headerCells ws
    if headers.isEmpty then findMatchedSheet rest
    else if fingerprint headers = expectedFP then some (ws, headers)
    else findMatchedSheet rest

/-- Payload of a data row: positional alignment of the file header names with
the trimmed cell values, missing cells defaulting to the empty string. -/
def payloadOf (fileHeaders : List String) (vals : List String) : List (String × String) :=
  (List.range fileHeaders.length).map fun i =>
    (fileHeaders.getD i "", strTrim (vals.getD i ""))

/-- First value stored under a key of a payload. -/
def plookup (payload : List (String × String)) (k : String) : Option String :=
  (payload.find? (fun kv => kv.1 = k)).map Prod.snd

/-- Join the non-empty cell texts with single spaces and trim, the row
signature of the extraction loop. -/
def joinedSignature (vals : List String) : String :=
  strTrim ⟨joinSep ' ' ((vals.map String.data).filter (fun v => !v.isEmpty))⟩

/-- Data row extraction of commit-ontrac: rows three to rowCount; skip on an
empty signature or on the footer heuristic; build the payload; drop rows with
an empty tech id; resolve the region from the detected region, falling back
to a Region payload field, else null. -/
def extractRows (batch_id : Nat) (storage_path sheetName : String)
    (fileHeaders : List String) (regionDetected : Option String) (ws : Sheet) : List RawRow :=
  (List.range' 3 (ws.rows.length - 2)).filterMap fun r =>
    let vals := getRowTexts (getRow ws r)
    let joined := joinedSignature vals
    if joined.data.isEmpty then none
    else if looksLikeFooter joined.data then none
    else
      let payload := payloadOf fileHeaders vals
      let tech_id := strTrim ((((plookup payload "TechId").orElse
        (fun _ => plookup payload "TechID")).orElse
        (fun _ => plookup payload "tech_id")).getD "")
      if tech_id.data.isEmpty then none
      else
        let a := strTrim ((regionDetected).getD "")
        let b := strTrim ((plookup payload "Region").getD "")
        let region := if !a.data.isEmpty then some a
          else if !b.data.isEmpty then some b else none
        let row : RawRow :=
          { batch_id := batch_id, source_file := storage_path, sheet_name := sheetName,
            row_num := r, tech_id := tech_id, region := region, payload := payload }
        some row

/-- Does the lowercased name end in .xlsx. -/
def endsWithXlsx (name : String) : Bool :=
  startsWithL (lowerChars name.data).reverse ".xlsx".data.reverse

/-- Per-file result entry of the commit response and manifest: hard failures
carry an error message, artifact write problems carry a warning. -/
structure FileResult where
  ok : Bool
  file : String
  error : Option String
  warning : Option String
  rowsParsed : Option Nat
deriving DecidableEq

/-- Outcome of handling one storage object inside the commit loop: the result
entry pushed for the file and the rows accumulated for the bulk insert.  When
the artifact write throws, the entry records a warning and the loop continues
to the next file, but the extracted rows were already accumulated. -/
def processFile (batch_id : Nat) (pfx : String) (artifactThrows : String → Bool)
    (f : StorageFile) : FileResult × List RawRow :=
  let storage_path := pfx ++ "/" ++ f.name
  if !endsWithXlsx f.name then
    ({ ok := false, file := f.name, error := some "Not an .xlsx (commit-ontrac expects .xlsx)",
       warning := none, rowsParsed := none }, [])
  else
    match f.download with
    | none =>
      ({ ok := false, file := f.name, error := some "Download failed",
         warning := none, rowsParsed := none }, [])
    | some wb =>
      match findMatchedSheet wb.worksheets with
      | none =>
        ({ ok := false, file := f.name,
           error := some "Header fingerprint mismatch (no worksheet matched expected headers)",
           warning := none, rowsParsed := none }, [])
      | some (ws, fileHeaders) =>
        let row1Text := joinedSignature (getRowTexts (getRow ws 1))
        let regionDetected := detectRegionFromRow1 row1Text.data
        let rows := extractRows batch_id storage_path ws.name fileHeaders regionDetected ws
        if artifactThrows f.name then
          ({ ok := false, file := f.name, error := none,
             warning := some "JSONL artifact write failed", rowsParsed := some rows.length }, rows)
        else
          ({ ok := true, file := f.name, error := none, warning := none,
             rowsParsed := some rows.length }, rows)

/-- Upsert on the batches table keyed by the unique upload_set_id, setting
status to committing, as step zero of commit-ontrac; returns the batch id of
the existing or the freshly created row. -/
def batchUpsert (db : Db) (u a : String) : Db × Nat :=
  match db.batches.find? (fun b => b.upload_set_id = u) with
  | some b =>
    ({ db with batches := db.batches.map (fun x =>
        if x.upload_set_id = u then
          { x with source_system := "ontrac", fiscal_month_anchor := a, status := "committing" }
        else x) }, b.batch_id)
  | none =>
    let fresh : Batch :=
      { batch_id := db.nextBatchId, upload_set_id := u, source_system := "ontrac",
        fiscal_month_anchor := a, status := "committing", manifest_path := none }
    ({ db with batches := db.batches ++ [fresh], nextBatchId := db.nextBatchId + 1 },
      db.nextBatchId)

/-- Fuelled chunking worker. -/
def chunksOfF : Nat → Nat → List α → List (List α)
  | 0, _, _ => []
  | _, _, [] => []
  | fuel + 1, n, x :: xs => (x :: xs.take (n - 1)) :: chunksOfF fuel n (xs.drop (n - 1))

/-- Split a list into chunks of at most n elements, as the slicing loop of
insertInChunks. -/
def chunksOf (n : Nat) (l : List α) : List (List α) := chunksOfF l.length n l

/-- Chunked bulk insert of insertInChunks: each chunk is one insert request;
the optional failing index models a chunk whose insert errors, which throws
and aborts the commit.  Returns the state after each chunk, the final state
and whether every chunk succeeded. -/
def insertChunksGo (failAt : Option Nat) : Nat → List (List RawRow) → Db → List Db × Db × Bool
  | _, [], db => ([], db, true)
  | i, c :: cs, db =>
    if failAt = some i then ([], db, false)
    else
      let db1 := { db with raw_rows := db.raw_rows ++ c }
      let out := insertChunksGo failAt (i + 1) cs db1
      (db1 :: out.1, out.2.1, out.2.2)

/-- Keep the maximum anchor while folding over the rubric query rows. -/
def pickMaxAnchor (acc : Option RubricVersion) (v : RubricVersion) : Option RubricVersion :=
  match acc with
  | none => some v
  | some w => if strLeB v.fiscal_month_anchor w.fiscal_month_anchor then some w else some v

/-- Resolution of the effective rubric in commit-ontrac: rows of the rubric
table matching the scope and the source system whose anchor is lte the commit
anchor, ordered by anchor descending with limit one.  The active flag is not
part of the query. -/
def resolveRubric (db : Db) (scope ss anchor : String) : Option RubricVersion :=
  (db.rubric_versions.filter (fun v =>
    v.scope = scope && v.source_system = ss && strLeB v.fiscal_month_anchor anchor)).foldl
    pickMaxAnchor none

/-- Keep the maximum timestamp while folding over the settings query rows. -/
def pickMaxUpdated (acc : Option String) (u : String) : Option String :=
  match acc with
  | none => some u
  | some w => if strLeB u w then some w else some u

/-- Resolution of the pinned settings timestamp: settings rows for the scope
and source system ordered by updated_at descending with limit one. -/
def resolveSettings (db : Db) (scope ss : String) : Option String :=
  ((db.settings.filter (fun s => s.scope = scope && s.source_system = ss)).map
    (fun s => s.updated_at)).foldl pickMaxUpdated none

/-- Upsert on the pins table keyed by batch_id. -/
def pinUpsert (db : Db) (pin : BatchPin) : Db :=
  if db.pins.any (fun p => p.batch_id = pin.batch_id) then
    { db with pins := db.pins.map (fun p => if p.batch_id = pin.batch_id then pin else p) }
  else
    { db with pins := db.pins ++ [pin] }

/-- Final batch row update: status flip and manifest pointer. -/
def updateBatchFinal (db : Db) (batch_id : Nat) (status manifestPath : String) : Db :=
  { db with batches := db.batches.map (fun b =>
      if b.batch_id = batch_id then
        { b with status := status, manifest_path := some manifestPath }
      else b) }

/-- Commit response shape of commit-ontrac. -/
structure CommitResp where
  ok : Bool
  batch_id : Nat
  upload_set_id : String
  rows : Nat
  failed : Nat
  manifest : String
  files : List FileResult
deriving DecidableEq

/-- External behaviour supplied to one commit invocation: the storage listing
with downloads, and failure flags for each fallible external call. -/
structure CommitEnv where
  files : List StorageFile
  batchUpsertFails : Bool
  listFails : Bool
  insertFailChunk : Option Nat
  manifestThrows : Bool
  rubricQueryFails : Bool
  settingsQueryFails : Bool
  pinUpsertFails : Bool
  statusUpdateFails : Bool
  artifactThrows : String → Bool

/-- Result of one commit invocation: the database after each mutating step in
order, the final database, and the response. -/
structure CommitOutcome where
  states : List Db
  final : Db
  result : Except String CommitResp

/-- Is the response a success. -/
def isOkR : Except String CommitResp → Bool
  | .ok _ => true
  | .error _ => false

/-- Success payload of a response. -/
def respOf : Except String CommitResp → Option CommitResp
  | .ok r => some r
  | .error _ => none

/-- The storage objects the commit loop iterates over: named, not nested. -/
def commitObjects (env : CommitEnv) : List StorageFile :=
  env.files.filter (fun f => !f.name.data.isEmpty && !f.name.data.contains '/')

/-- The commit steps after batch identity resolution: list the upload prefix,
parse and extract each file, insert rows in chunks, write the manifest,
resolve the rubric and the settings, upsert the pin, and only then update the
batch status. -/
def commitPhase2 (env : CommitEnv) (u a : String) (batch_id : Nat) (db1 : Db) : CommitOutcome :=
  if env.listFails then
    { states := [], final := db1, result := .error "storage list failed" }
  else
    let objects := commitObjects env
    if objects.isEmpty then
      { states := [], final := db1, result := .error "No files found under the upload prefix" }
    else
      let pfx := "ontrac/" ++ a ++ "/" ++ u
      let processed := objects.map (processFile batch_id pfx env.artifactThrows)
      let results := processed.map Prod.fst
      let dbRows := (processed.map Prod.snd).flatten
      let failedFiles := (results.filter (fun r => !r.ok)).length
      let ins := insertChunksGo env.insertFailChunk 0 (chunksOf 500 dbRows) db1
      if !ins.2.2 then
        { states := ins.1, final := ins.2.1, result := .error "DB insert failed" }
      else
        let db2 := ins.2.1
        if env.manifestThrows then
          { states := ins.1, final := db2, result := .error "manifest write failed" }
        else if env.rubricQueryFails then
          { states := ins.1, final := db2, result := .error "Failed to resolve rubric version" }
        else
          match resolveRubric db2 "global" "ontrac" a with
          | none =>
            { states := ins.1, final := db2, result := .error "Missing effective rubric" }
          | some rv =>
            if env.settingsQueryFails then
              { states := ins.1, final := db2, result := .error "Failed to read settings" }
            else
              match resolveSettings db2 "global" "ontrac" with
              | none =>
                { states := ins.1, final := db2,
                  result := .error "No settings rows found (required)" }
              | some pinnedAt =>
                if env.pinUpsertFails then
                  { states := ins.1, final := db2, result := .error "Failed to pin batch rules" }
                else
                  let pin : BatchPin :=
                    { batch_id := batch_id, scope := "global", source_system := "ontrac",
                      fiscal_month_anchor := a, rubric_version_id := rv.id,
                      settings_pinned_at := pinnedAt }
                  let db3 := pinUpsert db2 pin
                  if env.statusUpdateFails then
                    { states := ins.1 ++ [db3], final := db3,
                      result := .error "Failed to update batch row" }
                  else
                    let manifestPath := "ontrac_commits/" ++ a ++ "/" ++ u ++ "/manifest.json"
                    let finalStatus :=
                      if failedFiles = 0 then "committed" else "committed_with_errors"
                    let db4 := updateBatchFinal db3 batch_id finalStatus manifestPath
                    let resp : CommitResp :=
                      { ok := failedFiles = 0, batch_id := batch_id, upload_set_id := u,
                        rows := dbRows.length, failed := failedFiles,
                        manifest := manifestPath, files := results }
                    { states := ins.1 ++ [db3, db4], final := db4, result := .ok resp }

/-- The commit-ontrac POST handler as a database transition. -/
def runCommit (env : CommitEnv) (upload_set_id fiscal_month_anchor : String) (db0 : Db) :
    CommitOutcome :=
  let u := strTrim upload_set_id
  let a := strTrim fiscal_month_anchor
  if u.data.isEmpty || a.data.isEmpty then
    { states := [], final := db0,
      result := .error "Missing upload_set_id (or batch_id alias) or fiscal_month_anchor" }
  else if env.batchUpsertFails then
    { states := [], final := db0, result := .error "Failed to resolve ingest batch" }
  else
    let up := batchUpsert db0 u a
    let o := commitPhase2 env u a up.2 up.1
    { states := up.1 :: o.states, final := o.final, result := o.result }

/- Structural lemmas about the commit transition. -/

/-- Pin invariant: every batch visible with a committed status has a pin row
for its batch id. -/
def pinInv (db : Db) : Prop :=
  ∀ b ∈ db.batches, (b.status = "committed" ∨ b.status = "committed_with_errors") →
    ∃ p ∈ db.pins, p.batch_id = b.batch_id

theorem pinInv_fields {db1 db2 : Db} (hb : db2.batches = db1.batches)
    (hp : db2.pins = db1.pins) (hInv : pinInv db1) : pinInv db2 := by
  intro b hbm hst
  rw [hb] at hbm
  rw [hp]
  exact hInv b hbm hst

theorem insertChunksGo_cons (failAt : Option Nat) (i : Nat) (c : List RawRow)
    (cs : List (List RawRow)) (db : Db) :
    insertChunksGo failAt i (c :: cs) db =
      if failAt = some i then ([], db, false)
      else
        let db1 : Db := { db with raw_rows := db.raw_rows ++ c }
        let out := insertChunksGo failAt (i + 1) cs db1
        (db1 :: out.1, out.2.1, out.2.2) := rfl

theorem insertChunksGo_fields (failAt : Option Nat) :
    ∀ (cs : List (List RawRow)) (i : Nat) (db : Db),
      (∀ s ∈ (insertChunksGo failAt i cs db).1,
        s.batches = db.batches ∧ s.pins = db.pins ∧
        s.rubric_versions = db.rubric_versions ∧ s.settings = db.settings) ∧
      ((insertChunksGo failAt i cs db).2.1.batches = db.batches ∧
       (insertChunksGo failAt i cs db).2.1.pins = db.pins ∧
       (insertChunksGo failAt i cs db).2.1.rubric_versions = db.rubric_versions ∧
       (insertChunksGo failAt i cs db).2.1.settings = db.settings) := by
  intro cs
  induction cs with
  | nil =>
    intro i db
    exact ⟨fun s hs => absurd hs (List.not_mem_nil s), rfl, rfl, rfl, rfl⟩
  | cons c cs ih =>
    intro i db
    rw [insertChunksGo_cons]
    by_cases h : failAt = some i
    · rw [if_pos h]
      exact ⟨fun s hs => absurd hs (List.not_mem_nil s), rfl, rfl, rfl, rfl⟩
    · rw [if_neg h]
      refine ⟨?_, (ih (i + 1) { db with raw_rows := db.raw_rows ++ c }).2⟩
      intro s hs
      rcases List.mem_cons.mp hs with rfl | hs
      · exact ⟨rfl, rfl, rfl, rfl⟩
      · exact (ih (i + 1) { db with raw_rows := db.raw_rows ++ c }).1 s hs

theorem insertChunksGo_ok_rows (failAt : Option Nat) :
    ∀ (cs : List (List RawRow)) (i : Nat) (db : Db),
      (insertChunksGo failAt i cs db).2.2 = true →
      (insertChunksGo failAt i cs db).2.1.raw_rows = db.raw_rows ++ cs.flatten := by
  intro cs
  induction cs with
  | nil =>
    intro i db _
    simp [insertChunksGo]
  | cons c cs ih =>
    intro i db hok
    rw [insertChunksGo_cons] at hok ⊢
    by_cases h : failAt = some i
    · rw [if_pos h] at hok
      simp at hok
    · rw [if_neg h] at hok ⊢
      rw [ih (i + 1) _ hok]
      simp [List.append_assoc]

theorem chunksOfF_flatten (n : Nat) :
    ∀ (fuel : Nat) (l : List α), l.length ≤ fuel → (chunksOfF fuel n l).flatten = l := by
  intro fuel
  induction fuel with
  | zero =>
    intro l h
    have hl : l = [] := List.length_eq_zero.mp (Nat.le_zero.mp h)
    subst hl
    rfl
  | succ m ih =>
    intro l h
    cases l with
    | nil => rfl
    | cons x xs =>
      simp only [chunksOfF, List.flatten_cons]
      rw [ih (xs.drop (n - 1)) (by rw [List.length_drop]; rw [List.length_cons] at h; omega)]
      rw [List.cons_append, List.take_append_drop]

theorem chunksOf_flatten (n : Nat) (l : List α) : (chunksOf n l).flatten = l :=
  chunksOfF_flatten n l.length l (le_refl _)

theorem pinUpsert_fields (db : Db) (pin : BatchPin) :
    (pinUpsert db pin).batches = db.batches ∧
    (pinUpsert db pin).raw_rows = db.raw_rows ∧
    (pinUpsert db pin).rubric_versions = db.rubric_versions ∧
    (pinUpsert db pin).settings = db.settings := by
  unfold pinUpsert
  split_ifs <;> exact ⟨rfl, rfl, rfl, rfl⟩

theorem pinUpsert_mem (db : Db) (pin : BatchPin) :
    ∃ p ∈ (pinUpsert db pin).pins, p.batch_id = pin.batch_id := by
  unfold pinUpsert
  by_cases h : db.pins.any (fun p => p.batch_id = pin.batch_id)
  · rw [if_pos h]
    simp only [List.any_eq_true, decide_eq_true_eq] at h
    obtain ⟨q, hq, hqid⟩ := h
    refine ⟨pin, ?_, rfl⟩
    refine List.mem_map.mpr ⟨q, hq, ?_⟩
    rw [if_pos hqid]
  · rw [if_neg h]
    exact ⟨pin, List.mem_append_right _ (List.mem_singleton.mpr rfl), rfl⟩

theorem pinUpsert_preserves (db : Db) (pin : BatchPin) :
    ∀ q ∈ db.pins, ∃ p ∈ (pinUpsert db pin).pins, p.batch_id = q.batch_id := by
  intro q hq
  unfold pinUpsert
  by_cases h : db.pins.any (fun p => p.batch_id = pin.batch_id)
  · rw [if_pos h]
    by_cases hqid : q.batch_id = pin.batch_id
    · refine ⟨pin, List.mem_map.mpr ⟨q, hq, by rw [if_pos hqid]⟩, hqid.symm⟩
    · refine ⟨q, List.mem_map.mpr ⟨q, hq, by rw [if_neg hqid]⟩, rfl⟩
  · rw [if_neg h]
    exact ⟨q, List.mem_append_left _ hq, rfl⟩

theorem pinInv_pinUpsert {db : Db} (pin : BatchPin) (hInv : pinInv db) :
    pinInv (pinUpsert db pin) := by
  intro b hb hst
  rw [(pinUpsert_fields db pin).1] at hb
  obtain ⟨p, hp, hpid⟩ := hInv b hb hst
  obtain ⟨q, hq, hqid⟩ := pinUpsert_preserves db pin p hp
  exact ⟨q, hq, by rw [hqid, hpid]⟩

theorem updateBatchFinal_fields (db : Db) (bid : Nat) (st mp : String) :
    (updateBatchFinal db bid st mp).pins = db.pins ∧
    (updateBatchFinal db bid st mp).raw_rows = db.raw_rows := ⟨rfl, rfl⟩

theorem updateBatchFinal_keys (db : Db) (bid : Nat) (st mp : String) :
    (updateBatchFinal db bid st mp).batches.map (fun b => (b.upload_set_id, b.batch_id)) =
      db.batches.map (fun b => (b.upload_set_id, b.batch_id)) := by
  unfold updateBatchFinal
  rw [List.map_map]
  apply List.map_congr_left
  intro b _
  by_cases h : b.batch_id = bid
  · simp [h]
  · simp [h]

theorem pinInv_updateFinal {db : Db} {bid : Nat} (st mp : String) (hInv : pinInv db)
    (hpin : ∃ p ∈ db.pins, p.batch_id = bid) :
    pinInv (updateBatchFinal db bid st mp) := by
  intro b hb hst
  unfold updateBatchFinal at hb ⊢
  simp only at hb ⊢
  rcases List.mem_map.mp hb with ⟨b0, hb0, heq⟩
  by_cases h : b0.batch_id = bid
  · rw [if_pos h] at heq
    obtain ⟨p, hp, hpid⟩ := hpin
    refine ⟨p, hp, ?_⟩
    rw [hpid, ← heq, h]
  · rw [if_neg h] at heq
    subst heq
    exact hInv b0 hb0 hst

theorem batchUpsert_fields (db : Db) (u a : String) :
    (batchUpsert db u a).1.pins = db.pins ∧
    (batchUpsert db u a).1.raw_rows = db.raw_rows ∧
    (batchUpsert db u a).1.rubric_versions = db.rubric_versions ∧
    (batchUpsert db u a).1.settings = db.settings := by
  unfold batchUpsert
  cases db.batches.find? (fun b => b.upload_set_id = u) <;> exact ⟨rfl, rfl, rfl, rfl⟩

theorem pinInv_batchUpsert (db : Db) (u a : String) (hInv : pinInv db) :
    pinInv (batchUpsert db u a).1 := by
  unfold batchUpsert
  cases hfind : db.batches.find? (fun b => b.upload_set_id = u) with
  | some b0 =>
    intro b hb hst
    simp only at hb hst ⊢
    rcases List.mem_map.mp hb with ⟨x, hx, heq⟩
    by_cases h : x.upload_set_id = u
    · rw [if_pos h] at heq
      rw [← heq] at hst
      rcases hst with h0 | h0 <;> simp at h0
    · rw [if_neg h] at heq
      subst heq
      exact hInv x hx hst
  | none =>
    intro b hb hst
    simp only at hb hst ⊢
    rcases List.mem_append.mp hb with hx | hx
    · exact hInv b hx hst
    · rw [List.mem_singleton.mp hx] at hst
      rcases hst with h0 | h0 <;> simp at h0

theorem batchUpsert_status (db : Db) (u a : String) :
    ∀ b ∈ (batchUpsert db u a).1.batches, b.upload_set_id = u → b.status = "committing" := by
  unfold batchUpsert
  cases hfind : db.batches.find? (fun b => b.upload_set_id = u) with
  | some b0 =>
    intro b hb hbu
    simp only at hb
    rcases List.mem_map.mp hb with ⟨x, hx, heq⟩
    by_cases h : x.upload_set_id = u
    · rw [if_pos h] at heq
      rw [← heq]
    · rw [if_neg h] at heq
      subst heq
      exact absurd hbu h
  | none =>
    intro b hb hbu
    simp only at hb
    rcases List.mem_append.mp hb with hx | hx
    · have hnone := List.find?_eq_none.mp hfind b hx
      simp only [decide_eq_true_eq] at hnone
      exact absurd hbu hnone
    · rw [List.mem_singleton.mp hx]

/- Order lemmas for the lexicographic comparison on date strings. -/

theorem listLeB_refl : ∀ l : List Char, listLeB l l = true := by
  intro l
  induction l with
  | nil => rfl
  | cons a as ih => simp [listLeB, ih]

theorem listLeB_total : ∀ x y : List Char, listLeB x y = true ∨ listLeB y x = true := by
  intro x
  induction x with
  | nil => intro y; exact Or.inl rfl
  | cons a as ih =>
    intro y
    cases y with
    | nil => exact Or.inr rfl
    | cons b bs =>
      by_cases h1 : a.toNat < b.toNat
      · left
        simp [listLeB, h1]
      · by_cases h2 : b.toNat < a.toNat
        · right
          simp [listLeB, h2]
        · rcases ih bs with h | h
          · left
            simp [listLeB, h1, h2, h]
          · right
            simp [listLeB, h1, h2, h]

theorem listLeB_trans :
    ∀ x y z : List Char, listLeB x y = true → listLeB y z = true → listLeB x z = true := by
  intro x
  induction x with
  | nil => intro y z _ _; rfl
  | cons a as ih =>
    intro y z hxy hyz
    cases y with
    | nil => simp [listLeB] at hxy
    | cons b bs =>
      cases z with
      | nil => simp [listLeB] at hyz
      | cons c cs =>
        simp only [listLeB] at hxy hyz ⊢
        by_cases h1 : a.toNat < b.toNat
        · by_cases h2 : b.toNat < c.toNat
          · simp [show a.toNat < c.toNat by omega]
          · simp only [h2, if_false] at hyz
            by_cases h3 : c.toNat < b.toNat
            · simp [h3] at hyz
            · simp [show a.toNat < c.toNat by omega]
        · simp only [h1, if_false] at hxy
          by_cases h4 : b.toNat < a.toNat
          · simp [h4] at hxy
          · by_cases h2 : b.toNat < c.toNat
            · simp [show a.toNat < c.toNat by omega]
            · simp only [h2, if_false] at hyz
              by_cases h3 : c.toNat < b.toNat
              · simp [h3] at hyz
              · have hac1 : ¬ a.toNat < c.toNat := by omega
                have hac2 : ¬ c.toNat < a.toNat := by omega
                simp only [hac1, hac2, if_false]
                simp only [h4, if_false] at hxy
                simp only [h3, if_false] at hyz
                exact ih bs cs hxy hyz

theorem strLeB_total (x y : String) : strLeB x y = true ∨ strLeB y x = true :=
  listLeB_total x.data y.data

theorem strLeB_trans {x y z : String} (h1 : strLeB x y = true) (h2 : strLeB y z = true) :
    strLeB x z = true :=
  listLeB_trans x.data y.data z.data h1 h2

/- Specification of the rubric and settings resolution folds. -/

theorem foldl_pickMax_some :
    ∀ (l : List RubricVersion) (w : RubricVersion),
      ∃ r, l.foldl pickMaxAnchor (some w) = some r ∧ (r ∈ l ∨ r = w) ∧
        strLeB w.fiscal_month_anchor r.fiscal_month_anchor = true ∧
        ∀ v ∈ l, strLeB v.fiscal_month_anchor r.fiscal_month_anchor = true := by
  intro l
  induction l with
  | nil =>
    intro w
    exact ⟨w, rfl, Or.inr rfl, listLeB_refl w.fiscal_month_anchor.data, fun v hv => absurd hv (List.not_mem_nil v)⟩
  | cons v t ih =>
    intro w
    by_cases h : strLeB v.fiscal_month_anchor w.fiscal_month_anchor = true
    · obtain ⟨r, hfold, hmem, hwr, hall⟩ := ih w
      refine ⟨r, ?_, ?_, hwr, ?_⟩
      · simpa [List.foldl_cons, pickMaxAnchor, h] using hfold
      · rcases hmem with hm | hm
        · exact Or.inl (List.mem_cons_of_mem _ hm)
        · exact Or.inr hm
      · intro x hx
        rcases List.mem_cons.mp hx with rfl | hx
        · exact strLeB_trans h hwr
        · exact hall x hx
    · have hwv : strLeB w.fiscal_month_anchor v.fiscal_month_anchor = true := by
        rcases strLeB_total v.fiscal_month_anchor w.fiscal_month_anchor with h0 | h0
        · exact absurd h0 h
        · exact h0
      obtain ⟨r, hfold, hmem, hvr, hall⟩ := ih v
      refine ⟨r, ?_, ?_, strLeB_trans hwv hvr, ?_⟩
      · simpa [List.foldl_cons, pickMaxAnchor, h] using hfold
      · rcases hmem with hm | hm
        · exact Or.inl (List.mem_cons_of_mem _ hm)
        · exact Or.inl (by rw [hm]; exact List.mem_cons_self _ _)
      · intro x hx
        rcases List.mem_cons.mp hx with rfl | hx
        · exact hvr
        · exact hall x hx

theorem resolveRubric_spec {db : Db} {scope ss anchor : String} {rv : RubricVersion}
    (h : resolveRubric db scope ss anchor = some rv) :
    rv ∈ db.rubric_versions ∧ rv.scope = scope ∧ rv.source_system = ss ∧
    strLeB rv.fiscal_month_anchor anchor = true ∧
    ∀ w ∈ db.rubric_versions, w.scope = scope → w.source_system = ss →
      strLeB w.fiscal_month_anchor anchor = true →
      strLeB w.fiscal_month_anchor rv.fiscal_month_anchor = true := by
  unfold resolveRubric at h
  cases hf : db.rubric_versions.filter (fun v =>
      v.scope = scope && v.source_system = ss && strLeB v.fiscal_month_anchor anchor) with
  | nil => rw [hf] at h; exact absurd h (by simp)
  | cons v t =>
    rw [hf] at h
    rw [List.foldl_cons] at h
    have hstep : pickMaxAnchor none v = some v := rfl
    rw [hstep] at h
    obtain ⟨r, hfold, hmem, hvr, hall⟩ := foldl_pickMax_some t v
    rw [hfold] at h
    have hr : r = rv := Option.some.inj h
    rw [hr] at hmem hvr hall
    have hmemf : rv ∈ db.rubric_versions.filter (fun v =>
        v.scope = scope && v.source_system = ss && strLeB v.fiscal_month_anchor anchor) := by
      rw [hf]
      rcases hmem with hm | hm
      · exact List.mem_cons_of_mem _ hm
      · rw [hm]; exact List.mem_cons_self _ _
    have hprops := List.of_mem_filter hmemf
    simp only [Bool.and_eq_true, decide_eq_true_eq] at hprops
    refine ⟨List.mem_of_mem_filter hmemf, hprops.1.1, hprops.1.2, hprops.2, ?_⟩
    intro w hw hws hwss hwa
    have hwf : w ∈ v :: t := by
      rw [← hf]
      apply List.mem_filter.mpr
      exact ⟨hw, by simp [hws, hwss, hwa]⟩
    rcases List.mem_cons.mp hwf with rfl | hwt
    · exact hvr
    · exact hall w hwt

theorem resolveRubric_none {db : Db} {scope ss anchor : String}
    (h : db.rubric_versions.filter (fun v =>
      v.scope = scope && v.source_system = ss && strLeB v.fiscal_month_anchor anchor) = []) :
    resolveRubric db scope ss anchor = none := by
  unfold resolveRubric
  rw [h]
  rfl

theorem foldl_pickMaxUpdated_some :
    ∀ (l : List String) (w : String), ∃ r, l.foldl pickMaxUpdated (some w) = some r := by
  intro l
  induction l with
  | nil => intro w; exact ⟨w, rfl⟩
  | cons v t ih =>
    intro w
    by_cases h : strLeB v w = true
    · obtain ⟨r, hfold⟩ := ih w
      exact ⟨r, by simpa [List.foldl_cons, pickMaxUpdated, h] using hfold⟩
    · obtain ⟨r, hfold⟩ := ih v
      exact ⟨r, by simpa [List.foldl_cons, pickMaxUpdated, h] using hfold⟩

theorem resolveSettings_none {db : Db} {scope ss : String}
    (h : db.settings.filter (fun s => s.scope = scope && s.source_system = ss) = []) :
    resolveSettings db scope ss = none := by
  unfold resolveSettings
  rw [h]
  rfl

/-- Resolution depends only on the rubric table. -/
theorem resolveRubric_congr {db1 db2 : Db} (h : db2.rubric_versions = db1.rubric_versions)
    (scope ss anchor : String) :
    resolveRubric db2 scope ss anchor = resolveRubric db1 scope ss anchor := by
  unfold resolveRubric
  rw [h]

/-- Resolution depends only on the settings table. -/
theorem resolveSettings_congr {db1 db2 : Db} (h : db2.settings = db1.settings)
    (scope ss : String) :
    resolveSettings db2 scope ss = resolveSettings db1 scope ss := by
  unfold resolveSettings
  rw [h]

/-- Every intermediate state of the post-upsert commit phase satisfies the
pin invariant when the incoming state does: the only status flip happens
after the pin upsert. -/
theorem commitPhase2_pinInv (env : CommitEnv) (u a : String) (bid : Nat) (db1 : Db)
    (hInv : pinInv db1) :
    ∀ s ∈ (commitPhase2 env u a bid db1).states, pinInv s := by
  obtain ⟨o, ho⟩ : ∃ o, commitPhase2 env u a bid db1 = o := ⟨_, rfl⟩
  rw [ho]
  simp only [commitPhase2] at ho
  repeat' split at ho
  all_goals subst ho
  all_goals intro s hs
  all_goals simp only at hs
  all_goals try exact absurd hs (List.not_mem_nil s)
  all_goals try
    exact pinInv_fields ((insertChunksGo_fields _ _ _ _).1 s hs).1
      ((insertChunksGo_fields _ _ _ _).1 s hs).2.1 hInv
  all_goals rcases List.mem_append.mp hs with hs | hs
  all_goals try
    exact pinInv_fields ((insertChunksGo_fields _ _ _ _).1 s hs).1
      ((insertChunksGo_fields _ _ _ _).1 s hs).2.1 hInv
  all_goals rcases List.mem_cons.mp hs with rfl | hs
  all_goals try
    exact pinInv_pinUpsert _ (pinInv_fields (insertChunksGo_fields _ _ _ _).2.1
      (insertChunksGo_fields _ _ _ _).2.2.1 hInv)
  all_goals try exact absurd hs (List.not_mem_nil s)
  all_goals rw [List.mem_singleton.mp hs]
  all_goals refine pinInv_updateFinal _ _ ?_ (pinUpsert_mem _ _)
  all_goals
    exact pinInv_pinUpsert _ (pinInv_fields (insertChunksGo_fields _ _ _ _).2.1
      (insertChunksGo_fields _ _ _ _).2.2.1 hInv)

/-- Storage prefix the commit loop reads from. -/
def commitPfxOf (u a : String) : String := "ontrac/" ++ a ++ "/" ++ u

/-- The per-file result entries a commit invocation produces. -/
def commitResults (env : CommitEnv) (bid : Nat) (u a : String) : List FileResult :=
  (commitObjects env).map (fun f => (processFile bid (commitPfxOf u a) env.artifactThrows f).1)

/-- The rows a commit invocation accumulates for the bulk insert. -/
def commitRows (env : CommitEnv) (bid : Nat) (u a : String) : List RawRow :=
  ((commitObjects env).map
    (fun f => (processFile bid (commitPfxOf u a) env.artifactThrows f).2)).flatten

/-- Unless the run succeeded, no commit step changes the batches table after
the initial upsert. -/
theorem commitPhase2_states_batches (env : CommitEnv) (u a : String) (bid : Nat) (db1 : Db) :
    ∀ s ∈ (commitPhase2 env u a bid db1).states,
      s.batches = db1.batches ∨ isOkR (commitPhase2 env u a bid db1).result = true := by
  obtain ⟨o, ho⟩ : ∃ o, commitPhase2 env u a bid db1 = o := ⟨_, rfl⟩
  rw [ho]
  simp only [commitPhase2] at ho
  repeat' split at ho
  all_goals subst ho
  all_goals intro s hs
  all_goals simp only at hs ⊢
  all_goals try exact absurd hs (List.not_mem_nil s)
  all_goals try exact Or.inl ((insertChunksGo_fields _ _ _ _).1 s hs).1
  all_goals try exact Or.inr rfl
  -- remaining: the failed-status-update branch
  all_goals left
  all_goals rcases List.mem_append.mp hs with hs | hs
  all_goals try exact ((insertChunksGo_fields _ _ _ _).1 s hs).1
  all_goals rw [List.mem_singleton.mp hs]
  all_goals rw [(pinUpsert_fields _ _).1]
  all_goals exact (insertChunksGo_fields _ _ _ _).2.1

/-- Anatomy of a successful post-upsert commit phase. -/
theorem commitPhase2_ok {env : CommitEnv} {u a : String} {bid : Nat} {db1 : Db}
    {resp : CommitResp} (hok : (commitPhase2 env u a bid db1).result = .ok resp) :
    ∃ rv pinnedAt db2,
      db2.batches = db1.batches ∧ db2.pins = db1.pins ∧
      db2.rubric_versions = db1.rubric_versions ∧ db2.settings = db1.settings ∧
      db2.raw_rows = db1.raw_rows ++ commitRows env bid u a ∧
      resolveRubric db2 "global" "ontrac" a = some rv ∧
      resolveSettings db2 "global" "ontrac" = some pinnedAt ∧
      resp.batch_id = bid ∧ resp.upload_set_id = u ∧
      resp.files = commitResults env bid u a ∧
      (commitPhase2 env u a bid db1).final =
        updateBatchFinal
          (pinUpsert db2
            { batch_id := bid, scope := "global", source_system := "ontrac",
              fiscal_month_anchor := a, rubric_version_id := rv.id,
              settings_pinned_at := pinnedAt })
          bid (if resp.failed = 0 then "committed" else "committed_with_errors")
          ("ontrac_commits/" ++ a ++ "/" ++ u ++ "/manifest.json") := by
  obtain ⟨o, ho⟩ : ∃ o, commitPhase2 env u a bid db1 = o := ⟨_, rfl⟩
  rw [ho] at hok ⊢
  simp only [commitPhase2] at ho
  repeat' split at ho
  all_goals subst ho
  all_goals simp only at hok
  all_goals try (exfalso; exact Except.noConfusion hok)
  all_goals rename_i hIN hMT hRQ accR rv heqR hSQ accS pinnedAt heqS hPU hSU hFF
  all_goals have hins : (insertChunksGo env.insertFailChunk 0
      (chunksOf 500
        (List.map Prod.snd
          (List.map (processFile bid ("ontrac/" ++ a ++ "/" ++ u) env.artifactThrows)
            (commitObjects env))).flatten) db1).2.2 = true := by simpa using hIN
  all_goals have hr := Except.ok.inj hok
  all_goals subst hr
  all_goals
    refine ⟨rv, pinnedAt, _, (insertChunksGo_fields _ _ _ _).2.1,
      (insertChunksGo_fields _ _ _ _).2.2.1, (insertChunksGo_fields _ _ _ _).2.2.2.1,
      (insertChunksGo_fields _ _ _ _).2.2.2.2, ?_, heqR, heqS, rfl, rfl, ?_, ?_⟩
  all_goals try
    (rw [insertChunksGo_ok_rows _ _ _ _ hins, chunksOf_flatten]
     simp only [commitRows, commitObjects, commitPfxOf, List.map_map]
     rfl)
  all_goals try
    (simp only [commitResults, commitObjects, commitPfxOf, List.map_map]
     rfl)
  all_goals split
  all_goals first
    | rfl
    | (rename_i hc; exact absurd hc hFF)

/-- A response is a success exactly when it is an ok value. -/
theorem isOkR_eq_true {r : Except String CommitResp} :
    isOkR r = true ↔ ∃ resp, r = .ok resp := by
  cases r with
  | ok resp => exact ⟨fun _ => ⟨resp, rfl⟩, fun _ => rfl⟩
  | error e =>
    refine ⟨fun h => absurd h (by simp [isOkR]), fun h => ?_⟩
    obtain ⟨resp, h⟩ := h
    exact Except.noConfusion h

/-- The final state of the post-upsert commit phase keeps the pin invariant:
the status flip only happens after the pin upsert. -/
theorem commitPhase2_final_pinInv (env : CommitEnv) (u a : String) (bid : Nat) (db1 : Db)
    (hInv : pinInv db1) : pinInv (commitPhase2 env u a bid db1).final := by
  obtain ⟨o, ho⟩ : ∃ o, commitPhase2 env u a bid db1 = o := ⟨_, rfl⟩
  rw [ho]
  simp only [commitPhase2] at ho
  repeat' split at ho
  all_goals subst ho
  all_goals simp only
  all_goals try exact hInv
  all_goals try
    exact pinInv_fields (insertChunksGo_fields _ _ _ _).2.1
      (insertChunksGo_fields _ _ _ _).2.2.1 hInv
  all_goals try
    exact pinInv_pinUpsert _ (pinInv_fields (insertChunksGo_fields _ _ _ _).2.1
      (insertChunksGo_fields _ _ _ _).2.2.1 hInv)
  all_goals refine pinInv_updateFinal _ _ ?_ (pinUpsert_mem _ _)
  all_goals
    exact pinInv_pinUpsert _ (pinInv_fields (insertChunksGo_fields _ _ _ _).2.1
      (insertChunksGo_fields _ _ _ _).2.2.1 hInv)

/-- Unless the run succeeded, the final batches table is the one the phase
started from. -/
theorem commitPhase2_final_batches (env : CommitEnv) (u a : String) (bid : Nat) (db1 : Db) :
    (commitPhase2 env u a bid db1).final.batches = db1.batches ∨
      isOkR (commitPhase2 env u a bid db1).result = true := by
  obtain ⟨o, ho⟩ : ∃ o, commitPhase2 env u a bid db1 = o := ⟨_, rfl⟩
  rw [ho]
  simp only [commitPhase2] at ho
  repeat' split at ho
  all_goals subst ho
  all_goals simp only
  all_goals try exact Or.inr rfl
  all_goals try exact Or.inl trivial
  all_goals try exact Or.inl (insertChunksGo_fields _ _ _ _).2.1
  all_goals left
  all_goals rw [(pinUpsert_fields _ _).1]
  all_goals exact (insertChunksGo_fields _ _ _ _).2.1

/- Key uniqueness lemmas for the pin upsert keyed on batch_id. -/

theorem pin_filter_nil {pin : BatchPin} :
    ∀ {l : List BatchPin}, (∀ p ∈ l, p.batch_id ≠ pin.batch_id) →
      l.filter (fun p => p.batch_id = pin.batch_id) = []
  | [], _ => rfl
  | q :: t, h => by
    have hq : q.batch_id ≠ pin.batch_id := h q (List.mem_cons_self q t)
    rw [List.filter_cons, if_neg (by simp [hq]),
      pin_filter_nil (fun p hp => h p (List.mem_cons_of_mem q hp))]

theorem pin_replace_filter {pin : BatchPin} :
    ∀ {l : List BatchPin},
      l.Pairwise (fun p q => p.batch_id ≠ q.batch_id) →
      l.any (fun p => p.batch_id = pin.batch_id) = true →
      (l.map (fun p => if p.batch_id = pin.batch_id then pin else p)).filter
        (fun p => p.batch_id = pin.batch_id) = [pin]
  | [], _, hany => by simp at hany
  | q :: t, hpw, hany => by
    rcases List.pairwise_cons.mp hpw with ⟨hqt, hpt⟩
    by_cases hq : q.batch_id = pin.batch_id
    · have ht : ∀ p ∈ t, p.batch_id ≠ pin.batch_id := by
        intro p hp heq
        exact hqt p hp (by rw [hq, heq])
      rw [List.map_cons, if_pos hq, List.filter_cons, if_pos (by simp)]
      have htail : (t.map (fun p => if p.batch_id = pin.batch_id then pin else p)).filter
          (fun p => p.batch_id = pin.batch_id) = [] := by
        apply pin_filter_nil
        intro p hp
        rcases List.mem_map.mp hp with ⟨p0, hp0, hpe⟩
        rw [if_neg (ht p0 hp0)] at hpe
        rw [← hpe]
        exact ht p0 hp0
      rw [htail]
    · have hany2 : t.any (fun p => p.batch_id = pin.batch_id) = true := by
        rcases List.any_eq_true.mp hany with ⟨p, hp, hpe⟩
        rcases List.mem_cons.mp hp with rfl | hp
        · exact absurd (of_decide_eq_true hpe) hq
        · exact List.any_eq_true.mpr ⟨p, hp, hpe⟩
      rw [List.map_cons, if_neg hq, List.filter_cons, if_neg (by simp [hq]),
        pin_replace_filter hpt hany2]

/-- After the pin upsert, the pins with the upserted key are exactly the new
pin, provided the table held at most one row per key. -/
theorem pinUpsert_filter (db : Db) (pin : BatchPin)
    (hpw : db.pins.Pairwise (fun p q => p.batch_id ≠ q.batch_id)) :
    (pinUpsert db pin).pins.filter (fun p => p.batch_id = pin.batch_id) = [pin] := by
  unfold pinUpsert
  by_cases h : db.pins.any (fun p => p.batch_id = pin.batch_id)
  · rw [if_pos h]
    exact pin_replace_filter hpw h
  · rw [if_neg h]
    simp only [Bool.not_eq_true, List.any_eq_false] at h
    rw [List.filter_append,
      pin_filter_nil (fun p hp heq => by have hc := h p hp; simp [heq] at hc),
      List.filter_cons, if_pos (by simp), List.nil_append]
    rfl

/- The find?-through-map lemma used for batch identity resolution. -/

theorem find?_map_of_pred (g : Batch → Batch) (p : Batch → Bool)
    (hp : ∀ x, p (g x) = p x) :
    ∀ l : List Batch, (l.map g).find? p = (l.find? p).map g
  | [] => rfl
  | x :: t => by
    by_cases hx : p x = true
    · rw [List.map_cons, List.find?_cons_of_pos _ (by rw [hp]; exact hx),
        List.find?_cons_of_pos _ hx]
      rfl
    · rw [List.map_cons, List.find?_cons_of_neg _ (by rw [hp]; simpa using hx),
        List.find?_cons_of_neg _ (by simpa using hx)]
      exact find?_map_of_pred g p hp t

theorem find?_append_none {p : Batch → Bool} :
    ∀ {l1 : List Batch}, l1.find? p = none → ∀ l2, (l1 ++ l2).find? p = l2.find? p
  | [], _, l2 => rfl
  | x :: t, h, l2 => by
    have hx : p x = false := by
      by_contra hc
      rw [List.find?_cons_of_pos _ (by simpa using hc)] at h
      exact Option.noConfusion h
    rw [List.find?_cons_of_neg _ (by simp [hx])] at h
    rw [List.cons_append, List.find?_cons_of_neg _ (by simp [hx])]
    exact find?_append_none h l2

/-- Batch identity resolution: the upsert keeps the first row keyed by the
upload_set_id aligned with the id it returns, and appends a row only when
none existed. -/
theorem batchUpsert_find (db : Db) (u a : String) :
    ((batchUpsert db u a).1.batches.find? (fun b => b.upload_set_id = u)).map
      (fun b => b.batch_id) = some (batchUpsert db u a).2 ∧
    (batchUpsert db u a).1.batches.length =
      (if (db.batches.find? (fun b => b.upload_set_id = u)).isSome then
        db.batches.length else db.batches.length + 1) := by
  unfold batchUpsert
  cases hfind : db.batches.find? (fun b => b.upload_set_id = u) with
  | some b0 =>
    simp only
    constructor
    · rw [find?_map_of_pred _ _ (fun x => by by_cases hx : x.upload_set_id = u <;> simp [hx]),
        hfind]
      by_cases hb : b0.upload_set_id = u <;> simp [hb]
    · rw [List.length_map]
      rfl
  | none =>
    simp only
    constructor
    · rw [find?_append_none hfind,
        List.find?_cons_of_pos _ (by simp)]
      rfl
    · rw [List.length_append]
      rfl

/-- The final batch update preserves the association between the upload set id
and the batch id of the first matching row. -/
theorem updateBatchFinal_find (db : Db) (bid : Nat) (st mp u : String) :
    ((updateBatchFinal db bid st mp).batches.find? (fun b => b.upload_set_id = u)).map
      (fun b => b.batch_id) =
    (db.batches.find? (fun b => b.upload_set_id = u)).map (fun b => b.batch_id) := by
  unfold updateBatchFinal
  simp only
  rw [find?_map_of_pred _ _ (fun x => by by_cases hx : x.batch_id = bid <;> simp [hx])]
  cases db.batches.find? (fun b => b.upload_set_id = u) with
  | none => rfl
  | some b =>
    simp only [Option.map_map, Option.map_some]
    by_cases hb : b.batch_id = bid <;> simp [hb]

/-- Anatomy of a successful commit run: the response carries the upserted
batch id, the rows were appended, the pin was resolved from the tables the
run started from, and the final state is the status flip after the pin
upsert. -/
theorem runCommit_ok {env : CommitEnv} {usid fma : String} {db0 : Db} {resp : CommitResp}
    (hok : (runCommit env usid fma db0).result = .ok resp) :
    ∃ rv pinnedAt db2,
      db2.batches = (batchUpsert db0 (strTrim usid) (strTrim fma)).1.batches ∧
      db2.pins = db0.pins ∧
      db2.rubric_versions = db0.rubric_versions ∧
      db2.settings = db0.settings ∧
      db2.raw_rows = db0.raw_rows ++
        commitRows env (batchUpsert db0 (strTrim usid) (strTrim fma)).2
          (strTrim usid) (strTrim fma) ∧
      resolveRubric db2 "global" "ontrac" (strTrim fma) = some rv ∧
      resolveSettings db2 "global" "ontrac" = some pinnedAt ∧
      resp.batch_id = (batchUpsert db0 (strTrim usid) (strTrim fma)).2 ∧
      resp.upload_set_id = strTrim usid ∧
      resp.files = commitResults env resp.batch_id (strTrim usid) (strTrim fma) ∧
      (runCommit env usid fma db0).final =
        updateBatchFinal
          (pinUpsert db2
            { batch_id := resp.batch_id, scope := "global", source_system := "ontrac",
              fiscal_month_anchor := strTrim fma, rubric_version_id := rv.id,
              settings_pinned_at := pinnedAt })
          resp.batch_id
          (if resp.failed = 0 then "committed" else "committed_with_errors")
          ("ontrac_commits/" ++ strTrim fma ++ "/" ++ strTrim usid ++ "/manifest.json") := by
  obtain ⟨o, ho⟩ : ∃ o, runCommit env usid fma db0 = o := ⟨_, rfl⟩
  rw [ho] at hok ⊢
  simp only [runCommit] at ho
  split at ho
  · subst ho
    simp only at hok
    exact absurd hok (fun h => Except.noConfusion h)
  · split at ho
    · subst ho
      simp only at hok
      exact absurd hok (fun h => Except.noConfusion h)
    · subst ho
      simp only at hok ⊢
      obtain ⟨rv, pinnedAt, db2, hb, hp, hrv, hse, hrr, heqR, heqS, hbid, huid, hfiles, hfin⟩ :=
        commitPhase2_ok hok
      refine ⟨rv, pinnedAt, db2, hb, ?_, ?_, ?_, ?_, heqR, heqS, hbid, huid, ?_, ?_⟩
      · rw [hp, (batchUpsert_fields db0 (strTrim usid) (strTrim fma)).1]
      · rw [hrv, (batchUpsert_fields db0 (strTrim usid) (strTrim fma)).2.2.1]
      · rw [hse, (batchUpsert_fields db0 (strTrim usid) (strTrim fma)).2.2.2]
      · rw [hrr, (batchUpsert_fields db0 (strTrim usid) (strTrim fma)).2.1]
      · rw [hfiles, hbid]
      · rw [hfin, hbid]

/- Concrete fixtures evaluated by the claim witnesses. -/

/-- A worksheet whose second row is exactly the expected header list and
which carries one data row. -/
def cSheet : Sheet :=
  { name := "Sheet1",
    rows := [["Keystone Weekly KPI"], EXPECTED_HEADERS,
             ["12345", "Jane Doe", "Sup A", "10"]] }

/-- A storage object holding the worksheet above. -/
def cFile : StorageFile := { name := "keystone.xlsx", download := some ⟨[cSheet]⟩ }

/-- An active rubric version with an earlier anchor. -/
def cRubricActive : RubricVersion :=
  { id := 1, scope := "global", source_system := "ontrac",
    fiscal_month_anchor := "2025-11-21", active := true }

/-- An inactive rubric version carrying the maximal anchor. -/
def cRubricInactive : RubricVersion :=
  { id := 2, scope := "global", source_system := "ontrac",
    fiscal_month_anchor := "2025-12-21", active := false }

/-- One settings row. -/
def cSettings : SettingsRow :=
  { scope := "global", source_system := "ontrac", updated_at := "2025-12-01T00:00:00Z" }

/-- A fresh database holding both rubric versions and the settings row. -/
def cDb : Db :=
  { batches := [], raw_rows := [], rubric_versions := [cRubricActive, cRubricInactive],
    settings := [cSettings], pins := [], nextBatchId := 1 }

/-- A commit environment where every external call succeeds. -/
def cEnv : CommitEnv :=
  { files := [cFile], batchUpsertFails := false, listFails := false, insertFailChunk := none,
    manifestThrows := false, rubricQueryFails := false, settingsQueryFails := false,
    pinUpsertFails := false, statusUpdateFails := false, artifactThrows := fun _ => false }

/-- One full commit run on the fresh database. -/
def cRun : CommitOutcome := runCommit cEnv "upl-1" "2025-12-21" cDb

/-- The per-file result the run above reports. -/
def cFileResult : FileResult :=
  { ok := true, file := "keystone.xlsx", error := none, warning := none,
    rowsParsed := some 1 }

/-- The response the run above produces. -/
def cResp : CommitResp :=
  { ok := true, batch_id := 1, upload_set_id := "upl-1", rows := 1, failed := 0,
    manifest := "ontrac_commits/2025-12-21/upl-1/manifest.json", files := [cFileResult] }

/-- A database with no rubric rows at all. -/
def w1Db : Db :=
  { batches := [], raw_rows := [], rubric_versions := [], settings := [cSettings],
    pins := [], nextBatchId := 1 }

/-- Success payloads determine the response. -/
theorem respOf_eq_some {r : Except String CommitResp} {resp : CommitResp}
    (h : respOf r = some resp) : r = .ok resp := by
  cases r with
  | ok x => exact congrArg Except.ok (Option.some.inj h)
  | error e => exact Option.noConfusion h

theorem cResp_check : respOf cRun.result = some cResp := by decide

/- Claim theorems. -/

/-- C1: every state a commit run exposes, including the final one, keeps the
pin invariant, because the pin upsert happens strictly before the status
flip; and when no rubric version with anchor lte the commit anchor exists
for the global ontrac scope, or no settings row exists, the run fails and
the batch of the upload set never moves past the committing status. -/
theorem commit_pin_before_status (env : CommitEnv) (usid fma : String) (db0 : Db)
    (h0 : pinInv db0) :
    (∀ s ∈ (runCommit env usid fma db0).states, pinInv s) ∧
    pinInv (runCommit env usid fma db0).final ∧
    ((resolveRubric db0 "global" "ontrac" (strTrim fma) = none ∨
      resolveSettings db0 "global" "ontrac" = none) →
     (strTrim usid).data.isEmpty = false →
     (strTrim fma).data.isEmpty = false →
     env.batchUpsertFails = false →
       isOkR (runCommit env usid fma db0).result = false ∧
       (∀ b ∈ (runCommit env usid fma db0).final.batches,
         b.upload_set_id = strTrim usid → b.status = "committing") ∧
       (∀ s ∈ (runCommit env usid fma db0).states, ∀ b ∈ s.batches,
         b.upload_set_id = strTrim usid → b.status = "committing")) := by
  obtain ⟨o, ho⟩ : ∃ o, runCommit env usid fma db0 = o := ⟨_, rfl⟩
  rw [ho]
  simp only [runCommit] at ho
  split at ho
  case isTrue hcond =>
    subst ho
    refine ⟨fun s hs => absurd hs (List.not_mem_nil s), h0, ?_⟩
    intro hmiss hu ha hbu
    rw [hu, ha] at hcond
    simp at hcond
  case isFalse hcond =>
    split at ho
    case isTrue hbu0 =>
      subst ho
      refine ⟨fun s hs => absurd hs (List.not_mem_nil s), h0, ?_⟩
      intro hmiss hu ha hbu
      rw [hbu] at hbu0
      exact Bool.noConfusion hbu0
    case isFalse hbu0 =>
      subst ho
      have hInv1 : pinInv (batchUpsert db0 (strTrim usid) (strTrim fma)).1 :=
        pinInv_batchUpsert db0 (strTrim usid) (strTrim fma) h0
      refine ⟨?_, ?_, ?_⟩
      · intro s hs
        simp only at hs
        rcases List.mem_cons.mp hs with rfl | hs
        · exact hInv1
        · exact commitPhase2_pinInv env _ _ _ _ hInv1 s hs
      · exact commitPhase2_final_pinInv env _ _ _ _ hInv1
      · intro hmiss hu ha hbu
        have hmiss1 : resolveRubric (batchUpsert db0 (strTrim usid) (strTrim fma)).1
              "global" "ontrac" (strTrim fma) = none ∨
            resolveSettings (batchUpsert db0 (strTrim usid) (strTrim fma)).1
              "global" "ontrac" = none := by
          rcases hmiss with hm | hm
          · exact Or.inl (by
              rw [resolveRubric_congr (batchUpsert_fields db0 _ _).2.2.1]
              exact hm)
          · exact Or.inr (by
              rw [resolveSettings_congr (batchUpsert_fields db0 _ _).2.2.2]
              exact hm)
        have hnotok : isOkR (commitPhase2 env (strTrim usid) (strTrim fma)
            (batchUpsert db0 (strTrim usid) (strTrim fma)).2
            (batchUpsert db0 (strTrim usid) (strTrim fma)).1).result = false := by
          by_contra hc
          rw [Bool.not_eq_false] at hc
          obtain ⟨resp, hresp⟩ := isOkR_eq_true.mp hc
          obtain ⟨rv, pinnedAt, db2, hb, hp, hrv, hse, hrr, heqR, heqS, _⟩ :=
            commitPhase2_ok hresp
          rcases hmiss1 with hm | hm
          · rw [resolveRubric_congr hrv, hm] at heqR
            exact Option.noConfusion heqR
          · rw [resolveSettings_congr hse, hm] at heqS
            exact Option.noConfusion heqS
        refine ⟨by simpa using hnotok, ?_, ?_⟩
        · intro b hbm hbu2
          simp only at hbm
          rcases commitPhase2_final_batches env (strTrim usid) (strTrim fma)
              (batchUpsert db0 (strTrim usid) (strTrim fma)).2
              (batchUpsert db0 (strTrim usid) (strTrim fma)).1 with hfb | hok2
          · rw [hfb] at hbm
            exact batchUpsert_status db0 _ _ b hbm hbu2
          · rw [hnotok] at hok2
            exact Bool.noConfusion hok2
        · intro s hs
          simp only at hs
          rcases List.mem_cons.mp hs with rfl | hs
          · exact fun b hbm hbu2 => batchUpsert_status db0 _ _ b hbm hbu2
          · rcases commitPhase2_states_batches env (strTrim usid) (strTrim fma)
                (batchUpsert db0 (strTrim usid) (strTrim fma)).2
                (batchUpsert db0 (strTrim usid) (strTrim fma)).1 s hs with hsb | hok2
            · intro b hbm hbu2
              rw [hsb] at hbm
              exact batchUpsert_status db0 _ _ b hbm hbu2
            · rw [hnotok] at hok2
              exact Bool.noConfusion hok2

/-- C1 witness: with no rubric rows the concrete run fails. -/
theorem commit_pin_before_status_witness :
    isOkR (runCommit cEnv "upl-1" "2025-12-21" w1Db).result = false :=
  ((commit_pin_before_status cEnv "upl-1" "2025-12-21" w1Db
      (fun b hb _ => absurd hb (List.not_mem_nil b))).2.2
    (Or.inl (by decide)) (by decide) (by decide) rfl).1

/-- C2 counterexample: the concrete run succeeds and pins rubric version
two, which is inactive, although the active version one also matches the
scope, source system and anchor bound; the commit rubric query ignores the
active flag, against the effective-dating rule of the specification. -/
theorem pin_active_maximal_cex :
    isOkR cRun.result = true ∧
    cRun.final.pins.map (fun p => p.rubric_version_id) = [2] ∧
    cRubricInactive ∈ cDb.rubric_versions ∧ cRubricInactive.id = 2 ∧
    cRubricInactive.active = false ∧
    cRubricActive ∈ cDb.rubric_versions ∧ cRubricActive.active = true ∧
    cRubricActive.scope = "global" ∧ cRubricActive.source_system = "ontrac" ∧
    strLeB cRubricActive.fiscal_month_anchor "2025-12-21" = true := by decide

/-- C2 amended: after a successful commit exactly one pin row exists for the
batch id, and it references the rubric version whose anchor is lte the
commit anchor and maximal among all versions of the global ontrac scope,
whether active or not. -/
theorem pin_maximal_anchor (env : CommitEnv) (usid fma : String) (db0 : Db)
    (resp : CommitResp)
    (hpw : db0.pins.Pairwise (fun p q => p.batch_id ≠ q.batch_id))
    (hok : (runCommit env usid fma db0).result = .ok resp) :
    ∃ rv : RubricVersion, rv ∈ db0.rubric_versions ∧
      rv.scope = "global" ∧ rv.source_system = "ontrac" ∧
      strLeB rv.fiscal_month_anchor (strTrim fma) = true ∧
      (∀ v ∈ db0.rubric_versions, v.scope = "global" → v.source_system = "ontrac" →
        strLeB v.fiscal_month_anchor (strTrim fma) = true →
        strLeB v.fiscal_month_anchor rv.fiscal_month_anchor = true) ∧
      ∃ pinnedAt : String,
        (runCommit env usid fma db0).final.pins.filter
            (fun p => p.batch_id = resp.batch_id) =
          [{ batch_id := resp.batch_id, scope := "global", source_system := "ontrac",
             fiscal_month_anchor := strTrim fma, rubric_version_id := rv.id,
             settings_pinned_at := pinnedAt }] := by
  obtain ⟨rv, pinnedAt, db2, hb, hp, hrv, hse, hrr, heqR, heqS, hbid, huid, hfiles, hfin⟩ :=
    runCommit_ok hok
  have hspec := resolveRubric_spec heqR
  rw [hrv] at hspec
  refine ⟨rv, hspec.1, hspec.2.1, hspec.2.2.1, hspec.2.2.2.1, hspec.2.2.2.2, pinnedAt, ?_⟩
  rw [hfin, (updateBatchFinal_fields _ _ _ _).1]
  have hpw2 : db2.pins.Pairwise (fun p q => p.batch_id ≠ q.batch_id) := by
    rw [hp]; exact hpw
  exact pinUpsert_filter db2
    { batch_id := resp.batch_id, scope := "global", source_system := "ontrac",
      fiscal_month_anchor := strTrim fma, rubric_version_id := rv.id,
      settings_pinned_at := pinnedAt } hpw2

/-- C2 witness: the amended statement on the concrete run. -/
theorem pin_maximal_anchor_witness :
    ∃ rv : RubricVersion, rv ∈ cDb.rubric_versions ∧
      rv.scope = "global" ∧ rv.source_system = "ontrac" ∧
      strLeB rv.fiscal_month_anchor (strTrim "2025-12-21") = true ∧
      (∀ v ∈ cDb.rubric_versions, v.scope = "global" → v.source_system = "ontrac" →
        strLeB v.fiscal_month_anchor (strTrim "2025-12-21") = true →
        strLeB v.fiscal_month_anchor rv.fiscal_month_anchor = true) ∧
      ∃ pinnedAt : String,
        (runCommit cEnv "upl-1" "2025-12-21" cDb).final.pins.filter
            (fun p => p.batch_id = cResp.batch_id) =
          [{ batch_id := cResp.batch_id, scope := "global", source_system := "ontrac",
             fiscal_month_anchor := strTrim "2025-12-21", rubric_version_id := rv.id,
             settings_pinned_at := pinnedAt }] :=
  pin_maximal_anchor cEnv "upl-1" "2025-12-21" cDb cResp List.Pairwise.nil
    (respOf_eq_some cResp_check)

/-- C3: two successive commit runs with the same upload_set_id return the
same batch_id, and the second run adds no batch row, because batch identity
is an upsert keyed on the unique upload_set_id. -/
theorem commit_idempotent_batch_id (env1 env2 : CommitEnv) (usid fma : String) (db0 : Db)
    (r1 r2 : CommitResp)
    (h1 : (runCommit env1 usid fma db0).result = .ok r1)
    (h2 : (runCommit env2 usid fma (runCommit env1 usid fma db0).final).result = .ok r2) :
    r2.batch_id = r1.batch_id ∧
    (runCommit env2 usid fma (runCommit env1 usid fma db0).final).final.batches.length =
      (runCommit env1 usid fma db0).final.batches.length := by
  have hulen : ∀ (db : Db) (bid : Nat) (st mp : String),
      (updateBatchFinal db bid st mp).batches.length = db.batches.length := by
    intro db bid st mp
    simp [updateBatchFinal]
  obtain ⟨rv1, pa1, db2, hb1, hp1, hrv1, hse1, hrr1, heqR1, heqS1, hbid1, huid1, hf1, hfin1⟩ :=
    runCommit_ok h1
  obtain ⟨rv2, pa2, db2x, hb2, hp2, hrv2, hse2, hrr2, heqR2, heqS2, hbid2, huid2, hf2, hfin2⟩ :=
    runCommit_ok h2
  have hfind1 : (((runCommit env1 usid fma db0).final.batches.find?
      (fun b => b.upload_set_id = strTrim usid)).map (fun b => b.batch_id)) =
      some (batchUpsert db0 (strTrim usid) (strTrim fma)).2 := by
    rw [hfin1, updateBatchFinal_find, (pinUpsert_fields _ _).1, hb1]
    exact (batchUpsert_find db0 (strTrim usid) (strTrim fma)).1
  obtain ⟨b1, hfb1, hbb1⟩ := Option.map_eq_some'.mp hfind1
  have hsnd2 : (batchUpsert (runCommit env1 usid fma db0).final
      (strTrim usid) (strTrim fma)).2 = b1.batch_id := by
    simp only [batchUpsert, hfb1]
  constructor
  · rw [hbid2, hsnd2, hbb1, hbid1]
  · rw [hfin2, hulen, (pinUpsert_fields _ _).1, hb2]
    have hlen2 := (batchUpsert_find (runCommit env1 usid fma db0).final
      (strTrim usid) (strTrim fma)).2
    rw [hfb1] at hlen2
    rw [hlen2]
    rfl

/-- C3 witness: the concrete run committed twice reuses batch id one and
keeps a single batch row. -/
theorem commit_idempotent_batch_id_witness :
    cResp.batch_id = cResp.batch_id ∧
    (runCommit cEnv "upl-1" "2025-12-21"
        (runCommit cEnv "upl-1" "2025-12-21" cDb).final).final.batches.length =
      (runCommit cEnv "upl-1" "2025-12-21" cDb).final.batches.length :=
  commit_idempotent_batch_id cEnv cEnv "upl-1" "2025-12-21" cDb cResp cResp
    (respOf_eq_some cResp_check) (respOf_eq_some (by decide))

/- Validation gate of the uploads page pipeline orchestrator. -/

/-- Parse response entry consumed by the validation gate of the uploads
page: the file name and whether the commit-shaped header matched. -/
structure ParsedFile where
  file : String
  headerMatch : Bool
deriving DecidableEq

/-- Per-file validation entry built by doProcessBatch. -/
structure PerFileCheck where
  file : String
  region : Option String
  regionOk : Bool
  headerOk : Bool
  ok : Bool
deriving DecidableEq

/-- Region extraction from a filename against the authoritative region
index, from extractRegionFromFilename in the uploads page. -/
def extractRegionFromFilename (name : String) (idx : List String) : Option String :=
  matchRegionFromText name.data idx

/-- One per-file validation entry of doProcessBatch. -/
def mkPerFile (idx : List String) (f : ParsedFile) : PerFileCheck :=
  let region := extractRegionFromFilename f.file idx
  { file := f.file, region := region, regionOk := region.isSome,
    headerOk := f.headerMatch, ok := region.isSome && f.headerMatch }

/-- Outcome of the validation step: a hard failure naming the header
mismatched files, a soft warning naming the region mismatched files, a
generic not-green stop, or green. -/
inductive ValidationOutcome where
  | hardFail (files : List String)
  | softWarn (files : List String)
  | notGreen
  | green
deriving DecidableEq

/-- The validation gate of doProcessBatch in source order: the header hard
fail throws first, then the region soft fail, then the aggregate green
check. -/
def validateGate (perFile : List PerFileCheck) : ValidationOutcome :=
  if perFile.any (fun x => !x.headerOk) then
    .hardFail ((perFile.filter (fun x => !x.headerOk)).map (fun x => x.file))
  else if perFile.any (fun x => !x.regionOk) then
    .softWarn ((perFile.filter (fun x => !x.regionOk)).map
      (fun x => x.file ++ " (region: " ++ x.region.getD "NOT FOUND" ++ ")"))
  else if !(perFile.all (fun x => x.ok)) then .notGreen
  else .green

/-- Commit runs only when the gate comes out green. -/
def commitInvoked : ValidationOutcome → Bool
  | .green => true
  | _ => false

/-- A worksheet whose single data row has two non-empty cells and no footer
keyword. -/
def c7Sheet : Sheet :=
  { name := "Sheet1", rows := [["Title"], EXPECTED_HEADERS, ["123", "45"]] }

/-- C4: on a reference date that splits into all-digit year, month and day
components within range, the fiscal month anchor is the twenty-first of the
same month when the day is at most twenty-one, else of the next month,
rolling the year at December. -/
theorem fiscal_anchor_rule (s : String) (ys ms ds : List Char) (y m d : Nat)
    (hsplit : splitOnChar '-' s.data = [ys, ms, ds])
    (hy : digitsToNat? ys = some y) (hm : digitsToNat? ms = some m)
    (hd : digitsToNat? ds = some d)
    (hm1 : 1 ≤ m) (hm2 : m ≤ 12) (hd1 : 1 ≤ d) (hd2 : d ≤ 31) :
    fiscalMonthAnchorIso s =
      some (if d ≤ 21 then ⟨natToChars y ++ '-' :: pad2 m ++ "-21".data⟩
        else if m = 12 then ⟨natToChars (y + 1) ++ '-' :: pad2 1 ++ "-21".data⟩
        else ⟨natToChars y ++ '-' :: pad2 (m + 1) ++ "-21".data⟩) := by
  unfold fiscalMonthAnchorIso
  rw [hsplit]
  simp only [hy, hm, hd]
  rw [if_pos ⟨hm1, hm2, hd1, hd2⟩]
  unfold fiscalMonthAnchorYMD
  by_cases hdle : d ≤ 21
  · rw [if_pos hdle, if_neg (show ¬ d ≥ 22 by omega)]
    simp only
    rw [show m - 1 + 1 = m by omega]
  · rw [if_neg hdle, if_pos (show d ≥ 22 by omega)]
    by_cases hm12 : m = 12
    · rw [if_pos hm12, if_pos (show m - 1 + 1 = 12 by omega)]
    · rw [if_neg hm12, if_neg (show ¬ m - 1 + 1 = 12 by omega)]
      simp only
      rw [show m - 1 + 1 + 1 = m + 1 by omega]

/-- C4 witness: the three reference examples of the specification. -/
theorem fiscal_anchor_rule_witness :
    fiscalMonthAnchorIso "2025-12-21" = some "2025-12-21" ∧
    fiscalMonthAnchorIso "2025-12-22" = some "2026-01-21" ∧
    fiscalMonthAnchorIso "2025-01-05" = some "2025-01-21" :=
  ⟨(fiscal_anchor_rule "2025-12-21" "2025".data "12".data "21".data 2025 12 21
      (by decide) (by decide) (by decide) (by decide)
      (by decide) (by decide) (by decide) (by decide)).trans (by decide),
   (fiscal_anchor_rule "2025-12-22" "2025".data "12".data "22".data 2025 12 22
      (by decide) (by decide) (by decide) (by decide)
      (by decide) (by decide) (by decide) (by decide)).trans (by decide),
   (fiscal_anchor_rule "2025-01-05" "2025".data "01".data "05".data 2025 1 5
      (by decide) (by decide) (by decide) (by decide)
      (by decide) (by decide) (by decide) (by decide)).trans (by decide)⟩

/-- C5: whenever some parsed file has a header mismatch, the gate reports a
hard failure whose list carries that file, and commit is not invoked,
regardless of any region mismatches in other files; the header check is
evaluated before the region check. -/
theorem validation_header_hard_fail (idx : List String) (files : List ParsedFile)
    (f : ParsedFile) (hf : f ∈ files) (hfm : f.headerMatch = false) :
    (∃ bad, validateGate (files.map (mkPerFile idx)) = .hardFail bad ∧ f.file ∈ bad) ∧
    commitInvoked (validateGate (files.map (mkPerFile idx))) = false := by
  have hany : (files.map (mkPerFile idx)).any (fun x => !x.headerOk) = true := by
    refine List.any_eq_true.mpr ⟨mkPerFile idx f, List.mem_map_of_mem _ hf, ?_⟩
    simp [mkPerFile, hfm]
  constructor
  · refine ⟨_, by unfold validateGate; rw [if_pos hany], ?_⟩
    refine List.mem_map.mpr ⟨mkPerFile idx f, ?_, rfl⟩
    refine List.mem_filter.mpr ⟨List.mem_map_of_mem _ hf, ?_⟩
    simp [mkPerFile, hfm]
  · unfold validateGate
    rw [if_pos hany]
    rfl

/-- C5 witness: one header-mismatched file beside one region-mismatched
file: the gate hard-fails on the header file and commit does not run. -/
theorem validation_header_hard_fail_witness :
    (mkPerFile ["Keystone"] ⟨"b.xlsx", true⟩).regionOk = false ∧
    ((∃ bad, validateGate ([⟨"a keystone.xlsx", false⟩, ⟨"b.xlsx", true⟩].map
        (mkPerFile ["Keystone"])) = .hardFail bad ∧ "a keystone.xlsx" ∈ bad) ∧
     commitInvoked (validateGate ([⟨"a keystone.xlsx", false⟩, ⟨"b.xlsx", true⟩].map
        (mkPerFile ["Keystone"]))) = false) :=
  ⟨by decide,
   validation_header_hard_fail ["Keystone"] [⟨"a keystone.xlsx", false⟩, ⟨"b.xlsx", true⟩]
     ⟨"a keystone.xlsx", false⟩ (by decide) rfl⟩

/-- C6 counterexample: two header lists differing in column count and
content share one fingerprint, because the bar separator may occur inside a
header cell; so unequal header lists do not always get distinct
fingerprints. -/
theorem fingerprint_separator_collision :
    fingerprint ["x|y"] = fingerprint ["x", "y"] ∧
    ["x|y"] ≠ ["x", "y"] := by decide

/-- C6 amended: for header lists whose normalized cells are non-empty and
bar-free, fingerprints are equal exactly when the normalized header lists
are componentwise equal, in order; and two headers with the same lowercased
whitespace words always normalize alike, so case and whitespace variants
share a fingerprint. -/
theorem fingerprint_words_iff (hs ks : List String)
    (hh : ∀ h ∈ hs, normalizeFp h.data ≠ [] ∧ '|' ∉ normalizeFp h.data)
    (hk : ∀ k ∈ ks, normalizeFp k.data ≠ [] ∧ '|' ∉ normalizeFp k.data) :
    (fingerprint hs = fingerprint ks ↔
      hs.map (fun h => normalizeFp h.data) = ks.map (fun k => normalizeFp k.data)) ∧
    (∀ h h' : String, wordsOf (lowerChars h.data) = wordsOf (lowerChars h'.data) →
      normalizeFp h.data = normalizeFp h'.data) := by
  have hcomp : ∀ ls : List String,
      (ls.map String.data).map normalizeFp = ls.map (fun h => normalizeFp h.data) := by
    intro ls
    rw [List.map_map]
    rfl
  constructor
  · constructor
    · intro heq
      have hdata : joinSep '|' ((hs.map String.data).map normalizeFp) =
          joinSep '|' ((ks.map String.data).map normalizeFp) := congrArg String.data heq
      have h1 : ∀ w ∈ (hs.map String.data).map normalizeFp, w ≠ [] ∧ '|' ∉ w := by
        intro w hw
        rcases List.mem_map.mp hw with ⟨l0, hl0, rfl⟩
        rcases List.mem_map.mp hl0 with ⟨h0, hh0, rfl⟩
        exact hh h0 hh0
      have h2 : ∀ w ∈ (ks.map String.data).map normalizeFp, w ≠ [] ∧ '|' ∉ w := by
        intro w hw
        rcases List.mem_map.mp hw with ⟨l0, hl0, rfl⟩
        rcases List.mem_map.mp hl0 with ⟨k0, hk0, rfl⟩
        exact hk k0 hk0
      have hlists := joinSepInj _ _ h1 h2 hdata
      rw [hcomp, hcomp] at hlists
      exact hlists
    · intro heq
      unfold fingerprint fingerprintL
      rw [show (hs.map String.data).map normalizeFp = (ks.map String.data).map normalizeFp by
        rw [hcomp, hcomp, heq]]
  · intro h h' hw
    rw [normalizeFp_eq_joinWords, normalizeFp_eq_joinWords, hw]

/-- C6 witness: a case and whitespace variant pair matches; a reordered pair
does not. -/
theorem fingerprint_words_iff_witness :
    fingerprint ["Tech  ID", "Total Jobs"] = fingerprint ["tech id", "total jobs"] ∧
    ¬ fingerprint ["Tech ID", "Total Jobs"] = fingerprint ["Total Jobs", "Tech ID"] :=
  ⟨(fingerprint_words_iff ["Tech  ID", "Total Jobs"] ["tech id", "total jobs"]
      (by decide) (by decide)).1.mpr (by decide),
   fun hfp => absurd ((fingerprint_words_iff ["Tech ID", "Total Jobs"]
      ["Total Jobs", "Tech ID"] (by decide) (by decide)).1.mp hfp) (by decide)⟩

/-- C7 counterexample: the commit-time xlsx extraction also drops small
rows: a data row whose signature has two whitespace tokens, is non-empty and
matches no footer keyword is skipped, although its TechId cell is
non-empty. -/
theorem xlsx_footer_two_token_cex :
    looksLikeFooter "123 45".data = true ∧
    (trimChars (upperChars "123 45".data)).isEmpty = false ∧
    FOOTER_PATTERNS.any (fun p => containsSub (upperChars "123 45".data) p.data) = false ∧
    strTrim ((plookup (payloadOf EXPECTED_HEADERS (getRowTexts (getRow c7Sheet 3)))
      "TechId").getD "") = "123" ∧
    extractRows 1 "p" "Sheet1" EXPECTED_HEADERS none c7Sheet = [] := by decide

/-- C7 amended: in both extraction variants a non-empty signature matching
no footer keyword is skipped exactly when it is a small row: at most two
whitespace tokens in the commit xlsx path, at most two non-empty comma cells
in the CSV preview path. -/
theorem footer_heuristic_rules (s t : List Char)
    (hs1 : (trimChars (upperChars s)).isEmpty = false)
    (hs2 : FOOTER_PATTERNS.any (fun p => containsSub (upperChars s) p.data) = false)
    (ht1 : (trimChars t).isEmpty = false)
    (ht2 : FOOTER_PATTERNS.any (fun p =>
      containsSub (normalizeForMatch (trimChars t)) (normalizeForMatch p.data)) = false) :
    (looksLikeFooter s = true ↔ (wordsOf s).length ≤ 2) ∧
    (looksLikeFooterLine t = true ↔
      (((splitOnChar ',' (trimChars t)).map trimChars).filter
        (fun c => !c.isEmpty)).length ≤ 2) := by
  constructor
  · simp only [looksLikeFooter]
    rw [if_neg (by simp [hs1]), if_neg (by simp [hs2])]
    by_cases hw : (wordsOf s).length ≤ 2
    · simp [hw]
    · simp [hw]
  · simp only [looksLikeFooterLine]
    rw [if_neg (by simp [ht1]), if_neg (by simp [ht2])]
    by_cases hc : (((splitOnChar ',' (trimChars t)).map trimChars).filter
        (fun c => !c.isEmpty)).length ≤ 2
    · simp [hc]
    · simp [hc]

/-- C7 witness: the small-row rule evaluated on a two-token xlsx signature
and on a three-cell CSV line. -/
theorem footer_heuristic_rules_witness :
    (looksLikeFooter "123 45".data = true ↔ (wordsOf "123 45".data).length ≤ 2) ∧
    (looksLikeFooterLine "1,2,3".data = true ↔
      (((splitOnChar ',' (trimChars "1,2,3".data)).map trimChars).filter
        (fun c => !c.isEmpty)).length ≤ 2) :=
  footer_heuristic_rules "123 45".data "1,2,3".data
    (by decide) (by decide) (by decide) (by decide)

/-- C8: when the JSONL artifact write for a file throws during a commit that
returns a response, the response and manifest carry a per-file entry flagged
not ok with a warning and no error message, together with the parsed row
count, and the rows extracted from that file are nevertheless part of the
bulk insert visible in the final state. -/
theorem artifact_warning_rows_kept (env : CommitEnv) (usid fma : String) (db0 : Db)
    (resp : CommitResp) (f : StorageFile) (wb : Workbook) (ws : Sheet)
    (fileHeaders : List String)
    (hok : (runCommit env usid fma db0).result = .ok resp)
    (hf : f ∈ commitObjects env)
    (hthrow : env.artifactThrows f.name = true)
    (hx : endsWithXlsx f.name = true)
    (hdl : f.download = some wb)
    (hmatch : findMatchedSheet wb.worksheets = some (ws, fileHeaders)) :
    ({ ok := false, file := f.name, error := none,
       warning := some "JSONL artifact write failed",
       rowsParsed := some (extractRows resp.batch_id
         (commitPfxOf (strTrim usid) (strTrim fma) ++ "/" ++ f.name) ws.name fileHeaders
         (detectRegionFromRow1 (joinedSignature (getRowTexts (getRow ws 1))).data)
         ws).length } : FileResult) ∈ resp.files ∧
    ∀ r ∈ extractRows resp.batch_id
        (commitPfxOf (strTrim usid) (strTrim fma) ++ "/" ++ f.name) ws.name fileHeaders
        (detectRegionFromRow1 (joinedSignature (getRowTexts (getRow ws 1))).data) ws,
      r ∈ (runCommit env usid fma db0).final.raw_rows := by
  obtain ⟨rv, pinnedAt, db2, hb, hp, hrv, hse, hrr, heqR, heqS, hbid, huid, hfiles, hfin⟩ :=
    runCommit_ok hok
  have hpf : processFile resp.batch_id (commitPfxOf (strTrim usid) (strTrim fma))
      env.artifactThrows f =
      ({ ok := false, file := f.name, error := none,
         warning := some "JSONL artifact write failed",
         rowsParsed := some (extractRows resp.batch_id
           (commitPfxOf (strTrim usid) (strTrim fma) ++ "/" ++ f.name) ws.name fileHeaders
           (detectRegionFromRow1 (joinedSignature (getRowTexts (getRow ws 1))).data)
           ws).length },
       extractRows resp.batch_id
         (commitPfxOf (strTrim usid) (strTrim fma) ++ "/" ++ f.name) ws.name fileHeaders
         (detectRegionFromRow1 (joinedSignature (getRowTexts (getRow ws 1))).data) ws) := by
    unfold processFile
    simp only [hx, hdl, hmatch, hthrow, Bool.not_true]
    rfl
  constructor
  · rw [hfiles]
    unfold commitResults
    refine List.mem_map.mpr ⟨f, hf, ?_⟩
    rw [hpf]
  · intro r hr
    rw [hfin, (updateBatchFinal_fields _ _ _ _).2, (pinUpsert_fields _ _).2.1, hrr,
      ← hbid]
    refine List.mem_append_right _ ?_
    unfold commitRows
    refine List.mem_flatten.mpr ⟨_, List.mem_map.mpr ⟨f, hf, rfl⟩, ?_⟩
    rw [hpf]
    exact hr

/-- Commit environment whose artifact write throws for the fixture file. -/
def w8Env : CommitEnv :=
  { files := [cFile], batchUpsertFails := false, listFails := false, insertFailChunk := none,
    manifestThrows := false, rubricQueryFails := false, settingsQueryFails := false,
    pinUpsertFails := false, statusUpdateFails := false,
    artifactThrows := fun n => n = "keystone.xlsx" }

/-- The per-file entry of the degraded run. -/
def w8FileResult : FileResult :=
  { ok := false, file := "keystone.xlsx", error := none,
    warning := some "JSONL artifact write failed", rowsParsed := some 1 }

/-- The response of the degraded run. -/
def w8Resp : CommitResp :=
  { ok := false, batch_id := 1, upload_set_id := "upl-1", rows := 1, failed := 1,
    manifest := "ontrac_commits/2025-12-21/upl-1/manifest.json", files := [w8FileResult] }

/-- The rows the fixture file parses to in the degraded run. -/
def w8Rows : List RawRow :=
  extractRows w8Resp.batch_id
    (commitPfxOf (strTrim "upl-1") (strTrim "2025-12-21") ++ "/" ++ "keystone.xlsx")
    cSheet.name EXPECTED_HEADERS
    (detectRegionFromRow1 (joinedSignature (getRowTexts (getRow cSheet 1))).data) cSheet

/-- The first parsed row of the degraded run. -/
def w8Row : RawRow :=
  w8Rows.getD 0
    { batch_id := 0, source_file := "", sheet_name := "", row_num := 0, tech_id := "",
      region := none, payload := [] }

/-- C8 witness: the degraded run reports the warning entry and its parsed
row still lands in the final row store. -/
theorem artifact_warning_rows_kept_witness :
    w8FileResult ∈ w8Resp.files ∧
    w8Row ∈ (runCommit w8Env "upl-1" "2025-12-21" cDb).final.raw_rows :=
  ⟨(artifact_warning_rows_kept w8Env "upl-1" "2025-12-21" cDb w8Resp cFile ⟨[cSheet]⟩ cSheet
      EXPECTED_HEADERS (respOf_eq_some (by decide)) (by decide) (by decide) (by decide) rfl
      (by decide)).1,
   (artifact_warning_rows_kept w8Env "upl-1" "2025-12-21" cDb w8Resp cFile ⟨[cSheet]⟩ cSheet
      EXPECTED_HEADERS (respOf_eq_some (by decide)) (by decide) (by decide) (by decide) rfl
      (by decide)).2 w8Row (by decide)⟩

/- Reading committed rows, and the KPI commit route where the housekeeping
delete lives. -/

/-- Modelled from the spec: querying the committed rows for a region and
month joins the raw rows to their batch and keeps the rows of batches in a
committed status whose fiscal month anchor is the requested month and whose
row region is the requested region. -/
def committedRowsFor (db : Db) (region anchor : String) : List RawRow :=
  db.raw_rows.filter (fun r =>
    r.region = some region &&
    db.batches.any (fun b => b.batch_id = r.batch_id &&
      (b.status = "committed" || b.status = "committed_with_errors") &&
      b.fiscal_month_anchor = anchor))

/-- A batch committed earlier for the same region and month. -/
def c9OldBatch : Batch :=
  { batch_id := 99, upload_set_id := "upl-old", source_system := "ontrac",
    fiscal_month_anchor := "2025-12-21", status := "committed",
    manifest_path := some "ontrac_commits/2025-12-21/upl-old/manifest.json" }

/-- A row the earlier batch committed. -/
def c9OldRow : RawRow :=
  { batch_id := 99, source_file := "ontrac/2025-12-21/upl-old/keystone.xlsx",
    sheet_name := "Sheet1", row_num := 3, tech_id := "99999",
    region := some "Keystone", payload := [] }

/-- The pin of the earlier batch. -/
def c9OldPin : BatchPin :=
  { batch_id := 99, scope := "global", source_system := "ontrac",
    fiscal_month_anchor := "2025-12-21", rubric_version_id := 1,
    settings_pinned_at := "2025-12-01T00:00:00Z" }

/-- A database carrying the earlier committed batch, its row and its pin. -/
def c9Db : Db :=
  { batches := [c9OldBatch], raw_rows := [c9OldRow],
    rubric_versions := [cRubricActive, cRubricInactive], settings := [cSettings],
    pins := [c9OldPin], nextBatchId := 100 }

/-- A second commit over the same region and month under a new upload set. -/
def c9Run : CommitOutcome := runCommit cEnv "upl-2" "2025-12-21" c9Db

/- The KPI commit route, from the region techs POST handler. -/

/-- Normalized technician id: trimmed then lowercased; empty and the literal
nan collapse to null (normalizeTechId in the techs route). -/
def normalizeTechId (v : Option String) : Option String :=
  match v with
  | none => none
  | some s =>
    let t : String := ⟨lowerChars (trimChars s.data)⟩
    if t.data.isEmpty || t = "nan" then none else some t

/-- One staged KPI row; the raw object is its key and value entries in
order, a none value modelling JSON null. -/
structure KpiStagedRow where
  batch_id : String
  row_num : Nat
  region : Option String
  fiscal_month_anchor : Option String
  raw : List (String × Option String)
deriving DecidableEq

/-- A KPI batch row. -/
structure KpiBatch where
  batch_id : String
  source_system : Option String
  region : Option String
  fiscal_month_anchor : Option String
  status : String
deriving DecidableEq

/-- A roster row. -/
structure RosterRow where
  tech_id : Option String
  full_name : Option String
  itg_supervisor : Option String
  company : Option String
  status : String
deriving DecidableEq

/-- A KPI master row; the model carries the text value of a metric, the
numeric mirror column being a parse of the same text with no part in any
key. -/
structure KpiMasterRow where
  batch_id : String
  source_system : String
  region : Option String
  fiscal_month_anchor : Option String
  tech_id : String
  tech_name : Option String
  supervisor : Option String
  company : Option String
  metric_name : String
  metric_value_text : Option String
deriving DecidableEq

/-- The KPI store. -/
structure KpiDb where
  kpi_batches : List KpiBatch
  kpi_raw_rows : List KpiStagedRow
  roster : List RosterRow
  kpi_master : List KpiMasterRow
deriving DecidableEq

/-- Property access on a raw object: the first entry under the key, a
missing key behaving as a null value. -/
def rawGet (raw : List (String × Option String)) (k : String) : Option String :=
  match raw.find? (fun kv => kv.1 = k) with
  | some kv => kv.2
  | none => none

/-- The staged tech id: first non-null among the three spellings, then
normalized. -/
def techIdOf (raw : List (String × Option String)) : Option String :=
  normalizeTechId (((rawGet raw "TechId").orElse (fun _ => rawGet raw "tech_id")).orElse
    (fun _ => rawGet raw "TECHID"))

/-- The active-roster map lookup keyed by normalized tech id, later rows
overwriting earlier ones as Map.set does. -/
def rosterFind (roster : List RosterRow) (id : String) :
    Option (Option String × Option String × Option String) :=
  (roster.filter (fun r => r.status = "Active")).foldl
    (fun acc r =>
      match normalizeTechId r.tech_id with
      | none => acc
      | some nid =>
        if nid = id then some (r.full_name, r.itg_supervisor, r.company) else acc)
    none

/-- Lowercased whitespace-free form of a column key (normalizedKey in the
techs route). -/
def normKey (k : String) : String := ⟨(lowerChars k.data).filter (fun c => !isWs c)⟩

/-- Identity columns, skipped entirely when building master rows. -/
def isIdentityKey (k : String) : Bool :=
  containsSub (normKey k).data "techid".data ||
  containsSub (normKey k).data "technicianid".data ||
  containsSub (normKey k).data "techname".data ||
  containsSub (normKey k).data "supervisor".data

/-- The KPI master rows one staged row yields in step five of the KPI
commit. -/
def kpiRowsForStaged (bt : KpiBatch) (roster : List RosterRow) (r : KpiStagedRow) :
    List KpiMasterRow :=
  match techIdOf r.raw with
  | none => []
  | some tid =>
    match rosterFind roster tid with
    | none => []
    | some info =>
      r.raw.filterMap (fun kv =>
        if kv.1.data.isEmpty then none
        else if isIdentityKey kv.1 then none
        else
          let metric_name := strTrim kv.1
          if metric_name.data.isEmpty then none
          else
            let row : KpiMasterRow :=
              { batch_id := bt.batch_id, source_system := bt.source_system.getD "Ontrac",
                region := (bt.region).orElse (fun _ => r.region),
                fiscal_month_anchor :=
                  (bt.fiscal_month_anchor).orElse (fun _ => r.fiscal_month_anchor),
                tech_id := tid, tech_name := info.1, supervisor := info.2.1,
                company := info.2.2, metric_name := metric_name,
                metric_value_text := kv.2 }
            some row)

/-- SQL equality on nullable columns: a null operand matches nothing. -/
def pgEq : Option String → Option String → Bool
  | some a, some b => a = b
  | _, _ => false

/-- Stable ascending insertion by row number. -/
def insertByRowNum (r : KpiStagedRow) : List KpiStagedRow → List KpiStagedRow
  | [] => [r]
  | x :: xs => if r.row_num < x.row_num then r :: x :: xs else x :: insertByRowNum r xs

/-- The order-by of the staged rows query. -/
def sortByRowNum : List KpiStagedRow → List KpiStagedRow
  | [] => []
  | x :: xs => insertByRowNum x (sortByRowNum xs)

/-- Upsert one master row on the conflict key batch_id, tech_id,
metric_name. -/
def masterUpsertRow (l : List KpiMasterRow) (row : KpiMasterRow) : List KpiMasterRow :=
  if l.any (fun m => m.batch_id = row.batch_id && m.tech_id = row.tech_id &&
      m.metric_name = row.metric_name) then
    l.map (fun m =>
      if m.batch_id = row.batch_id && m.tech_id = row.tech_id &&
          m.metric_name = row.metric_name then row else m)
  else l ++ [row]

/-- The KPI commit POST as a store transition: load the batch, order its
staged rows, check tech ids, build master rows, housekeeping-delete master
rows of other batches for the batch region and month, upsert the new rows
and mark the batch committed; the boolean reports success. -/
def runKpiCommit (db : KpiDb) (batch_id : String) : KpiDb × Bool :=
  match db.kpi_batches.find? (fun b => b.batch_id = batch_id) with
  | none => (db, false)
  | some bt =>
    let rows := sortByRowNum (db.kpi_raw_rows.filter (fun r => r.batch_id = batch_id))
    if rows.isEmpty then (db, false)
    else
      let techIds := rows.filterMap (fun r => techIdOf r.raw)
      if techIds.isEmpty then (db, false)
      else
        let out := (rows.map (kpiRowsForStaged bt db.roster)).flatten
        if out.isEmpty then (db, false)
        else
          let afterDel := db.kpi_master.filter (fun m =>
            !(pgEq m.region bt.region && pgEq m.fiscal_month_anchor bt.fiscal_month_anchor &&
              !(m.batch_id = batch_id)))
          let afterUp := out.foldl masterUpsertRow afterDel
          let batches2 := db.kpi_batches.map (fun b =>
            if b.batch_id = batch_id then { b with status := "committed" } else b)
          let db2 : KpiDb := { db with kpi_master := afterUp, kpi_batches := batches2 }
          (db2, true)

/-- Every master row built from a staged row carries the batch id of the
loaded batch. -/
theorem kpiRows_batch (bt : KpiBatch) (roster : List RosterRow) (r : KpiStagedRow) :
    ∀ m ∈ kpiRowsForStaged bt roster r, m.batch_id = bt.batch_id := by
  intro m hm
  unfold kpiRowsForStaged at hm
  cases htid : techIdOf r.raw with
  | none =>
    simp only [htid] at hm
    exact absurd hm (List.not_mem_nil m)
  | some tid =>
    simp only [htid] at hm
    cases hro : rosterFind roster tid with
    | none =>
      simp only [hro] at hm
      exact absurd hm (List.not_mem_nil m)
    | some info =>
      simp only [hro] at hm
      rcases List.mem_filterMap.mp hm with ⟨kv, hkv, heq⟩
      repeat' split at heq
      all_goals try exact Option.noConfusion heq
      rw [← Option.some.inj heq]

theorem masterUpsertRow_mem {l : List KpiMasterRow} {row m : KpiMasterRow}
    (hm : m ∈ masterUpsertRow l row) : m ∈ l ∨ m = row := by
  unfold masterUpsertRow at hm
  split at hm
  · rcases List.mem_map.mp hm with ⟨m0, hm0, heq⟩
    by_cases hc : (m0.batch_id = row.batch_id && m0.tech_id = row.tech_id &&
        m0.metric_name = row.metric_name) = true
    · rw [if_pos hc] at heq
      exact Or.inr heq.symm
    · rw [if_neg hc] at heq
      exact Or.inl (heq ▸ hm0)
  · rcases List.mem_append.mp hm with h | h
    · exact Or.inl h
    · exact Or.inr (List.mem_singleton.mp h)

theorem foldl_masterUpsert_mem :
    ∀ (rows : List KpiMasterRow) (l : List KpiMasterRow) (m : KpiMasterRow),
      m ∈ rows.foldl masterUpsertRow l → m ∈ l ∨ m ∈ rows
  | [], _, _, hm => Or.inl hm
  | r :: rs, l, m, hm => by
    rw [List.foldl_cons] at hm
    rcases foldl_masterUpsert_mem rs _ m hm with h | h
    · rcases masterUpsertRow_mem h with h1 | h1
      · exact Or.inl h1
      · exact Or.inr (by rw [h1]; exact List.mem_cons_self _ _)
    · exact Or.inr (List.mem_cons_of_mem _ h)

/-- C9 counterexample: commit-ontrac performs no housekeeping delete: after
batch one hundred commits for the same region and month as the previously
committed batch ninety-nine, the committed rows for that key still include
the old batch's row, so the read returns both batches' rows instead of only
the new batch's. -/
theorem commit_no_housekeeping_cex :
    isOkR c9Run.result = true ∧
    (committedRowsFor c9Run.final "Keystone" "2025-12-21").map (fun r => r.batch_id) =
      [99, 100] := by decide

/-- C9 amended: the housekeeping delete lives in the KPI commit route of the
region techs endpoint: after a successful KPI commit of a batch with a
non-null region and month, every master row carrying that region and month
belongs to the committed batch. -/
theorem kpi_commit_housekeeping (db : KpiDb) (bid : String) (bt : KpiBatch) (R M : String)
    (hbt : db.kpi_batches.find? (fun b => b.batch_id = bid) = some bt)
    (hR : bt.region = some R) (hM : bt.fiscal_month_anchor = some M)
    (hok : (runKpiCommit db bid).2 = true) :
    ∀ m ∈ (runKpiCommit db bid).1.kpi_master,
      m.region = some R → m.fiscal_month_anchor = some M → m.batch_id = bid := by
  obtain ⟨o, ho⟩ : ∃ o, runKpiCommit db bid = o := ⟨_, rfl⟩
  rw [ho] at hok ⊢
  simp only [runKpiCommit, hbt] at ho
  repeat' split at ho
  all_goals subst ho
  all_goals try (exfalso; simp only at hok; exact Bool.noConfusion hok)
  intro m hm hmr hma
  simp only at hm
  rcases foldl_masterUpsert_mem _ _ m hm with hdel | hout
  · have hcond := List.of_mem_filter hdel
    by_contra hne
    rw [hmr, hR, hma, hM] at hcond
    simp [pgEq, hne] at hcond
  · rcases List.mem_flatten.mp hout with ⟨l0, hl0, hml⟩
    rcases List.mem_map.mp hl0 with ⟨r0, hr0, hle⟩
    have hb0 : m.batch_id = bt.batch_id := kpiRows_batch bt _ r0 m (hle ▸ hml)
    have hpfind := List.find?_some hbt
    rw [hb0]
    exact of_decide_eq_true hpfind

/-- The staged batch of the KPI witness. -/
def k9Batch : KpiBatch :=
  { batch_id := "b2", source_system := some "Ontrac", region := some "Keystone",
    fiscal_month_anchor := some "2025-12-21", status := "staged" }

/-- Its staged row. -/
def k9Staged : KpiStagedRow :=
  { batch_id := "b2", row_num := 1, region := none, fiscal_month_anchor := none,
    raw := [("TechId", some "T1"), ("Total Jobs", some "10")] }

/-- An active roster row matching the staged tech. -/
def k9Roster : RosterRow :=
  { tech_id := some "T1", full_name := some "Jane Doe", itg_supervisor := some "Sup A",
    company := some "Co", status := "Active" }

/-- A master row of another batch for the same region and month. -/
def k9OldMaster : KpiMasterRow :=
  { batch_id := "b1", source_system := "Ontrac", region := some "Keystone",
    fiscal_month_anchor := some "2025-12-21", tech_id := "t9", tech_name := none,
    supervisor := none, company := none, metric_name := "Total Jobs",
    metric_value_text := some "5" }

/-- The master row the KPI commit builds for the staged row. -/
def k9NewMaster : KpiMasterRow :=
  { batch_id := "b2", source_system := "Ontrac", region := some "Keystone",
    fiscal_month_anchor := some "2025-12-21", tech_id := "t1",
    tech_name := some "Jane Doe", supervisor := some "Sup A", company := some "Co",
    metric_name := "Total Jobs", metric_value_text := some "10" }

/-- The KPI store of the witness. -/
def k9Db : KpiDb :=
  { kpi_batches := [k9Batch], kpi_raw_rows := [k9Staged], roster := [k9Roster],
    kpi_master := [k9OldMaster] }

/-- C9 witness: after the concrete KPI commit the other batch's master row
for the key is gone and the surviving key row carries the committed batch
id. -/
theorem kpi_commit_housekeeping_witness :
    k9NewMaster ∈ (runKpiCommit k9Db "b2").1.kpi_master ∧
    k9NewMaster.batch_id = "b2" ∧
    k9OldMaster ∉ (runKpiCommit k9Db "b2").1.kpi_master :=
  ⟨by decide,
   kpi_commit_housekeeping k9Db "b2" k9Batch "Keystone" "2025-12-21" (by decide) rfl rfl
     (by decide) k9NewMaster (by decide) rfl rfl,
   by decide⟩

end TeamOptix
